import Mathlib

/-!
Verification of the ROHO (RH) blockchain consensus core.

This file shallowly embeds the Rust sources of the repository
(`src/consensus/rewards.rs`, `src/crypto/hash.rs`, `src/crypto/merkle.rs`,
`src/validation/transaction.rs`, `src/storage/utxo.rs`, `src/storage/state.rs`,
`src/lib.rs`) into Lean and proves properties about the embedding.

Modelling conventions:
* Machine integers (`u32`, `u64`) are modelled as `Nat`; wrap-around or
  saturation is made explicit with `% U64`, `satAdd64`, truncated subtraction
  exactly at the places the Rust code can wrap or saturate.
* The BLAKE3 hash `hash_bytes` is modelled as an injective tagging function on
  byte lists (collision-free idealisation of a cryptographic hash); all other
  definitions are translated operation by operation from the source.
* Schnorr signature verification is an external cryptographic primitive; it is
  a parameter `sigOk` of every definition that uses it.
* Rust `HashMap`s are modelled as association lists (for maps that the code
  iterates over) or as functions to `Option` (for maps used only through
  `get`/`insert`/`remove`); `HashMap` equality is extensional, so statements
  about map contents are phrased through lookups.
* The ambient wall clock read by `SystemTime::now()` is an explicit parameter
  `now` of the state operations.
* Loops whose termination depends on the well-formedness of the block graph
  (the trace-back loop of `reorganize`) take an explicit fuel parameter.
-/

/-- Amount of fuel-free 64-bit arithmetic: `2^64`, the modulus of `u64`. -/
def U64 : Nat := 2 ^ 64

/-- Saturating `u64` addition (`u64::saturating_add`). -/
def satAdd64 (a b : Nat) : Nat := min (a + b) (U64 - 1)

/-- Wrapped `u64` sum of a list (`iter().sum()` for `u64`, release semantics). -/
def sum64 (l : List Nat) : Nat := l.foldl (fun a b => (a + b) % U64) 0

/-- Little-endian byte decomposition of a `u32` (`to_le_bytes`). -/
def leBytes4 (n : Nat) : List Nat :=
  [n % 256, n / 256 % 256, n / 256 ^ 2 % 256, n / 256 ^ 3 % 256]

/-- Little-endian byte decomposition of a `u64` (`to_le_bytes`). -/
def leBytes8 (n : Nat) : List Nat :=
  [n % 256, n / 256 % 256, n / 256 ^ 2 % 256, n / 256 ^ 3 % 256,
   n / 256 ^ 4 % 256, n / 256 ^ 5 % 256, n / 256 ^ 6 % 256, n / 256 ^ 7 % 256]

/-- 32-byte hash value (`crypto/hash.rs`, `struct Hash(pub [u8; 32])`).
The byte array is modelled as a list of naturals. -/
structure Hash where
  bytes : List Nat
deriving DecidableEq

/-- The all-zero hash (`Hash::zero()`). -/
def Hash.zero : Hash := ⟨List.replicate 32 0⟩

/-- Model of BLAKE3 (`hash_bytes` in `crypto/hash.rs`): an injective function
on byte lists, the standard collision-free idealisation of a cryptographic
hash.  The tag `1` in front keeps every digest distinct from `Hash.zero`. -/
def hash_bytes (data : List Nat) : Hash := ⟨1 :: data⟩

/-- Hash two hashes together (`hash_pair` in `crypto/hash.rs`):
`hash_bytes(left.0 ++ right.0)`. -/
def hash_pair (left right : Hash) : Hash := hash_bytes (left.bytes ++ right.bytes)

/-- Protocol constant `PUBLIC_ISSUANCE` (`lib.rs`): 90M RH in base units. -/
def PUBLIC_ISSUANCE : Nat := 90000000 * 100000000

/-- Protocol constant `MAX_REORG_DEPTH` (`lib.rs`). -/
def MAX_REORG_DEPTH : Nat := 10

/-- Protocol constant `CHAIN_ID` (`lib.rs`): mainnet id. -/
def CHAIN_ID : Nat := 1

/-- Protocol constant `CHECKPOINTS` (`lib.rs`): the genesis checkpoint.
The hash is the fixed hex constant from the source; only the heights are read
by `validate_reorg_depth`. -/
def CHECKPOINTS : List (Nat × Hash) :=
  [(0, ⟨[0x31, 0x53, 0xdb, 0x7f, 0x3b, 0x03, 0xeb, 0x37, 0x1f, 0x22, 0x27, 0xbd,
         0xb8, 0x46, 0x46, 0x26, 0xf4, 0x13, 0x99, 0xde, 0x83, 0x9d, 0xd7, 0x39,
         0xc7, 0x7b, 0x6c, 0x71, 0xbc, 0x85, 0xd6, 0x23]⟩)]

/-- Decay denominator `DECAY_RATE` (`consensus/rewards.rs`). -/
def DECAY_RATE : Nat := 1000000

/-- Numerator `INITIAL_REWARD_NUMERATOR` (`consensus/rewards.rs`). -/
def INITIAL_REWARD_NUMERATOR : Nat := 50

/-- Block reward schedule (`calculate_block_reward` in `consensus/rewards.rs`).
`remaining * 50` is computed in `u128` in the source; it never exceeds
`2^128` (indeed not even `2^64`), so plain `Nat` arithmetic is exact.
`saturating_sub` is `Nat` subtraction. -/
def calculate_block_reward (height : Nat) (total_issued_so_far : Nat) : Nat :=
  if height = 0 then 0
  else
    let remaining := PUBLIC_ISSUANCE - total_issued_so_far
    if remaining = 0 then 0
    else
      let reward := remaining * INITIAL_REWARD_NUMERATOR / DECAY_RATE
      let reward := min reward remaining
      if reward = 0 then 1 else reward

/-- Cumulative issuance along a chain that starts from `total_issued = 0` and
receives the full subsidy at every height, accumulated with the saturating
addition used by `apply_block` (`total_issued.saturating_add(total_subsidy)`). -/
def issuedAfter : Nat → Nat
  | 0 => 0
  | n + 1 => satAdd64 (issuedAfter n) (calculate_block_reward (n + 1) (issuedAfter n))

/-- One level of the merkle loop, odd-length padding step (`crypto/merkle.rs`:
`if current_level.len() % 2 == 1 { current_level.push(last) }`). -/
def padLevel (L : List Hash) : List Hash :=
  if L.length % 2 = 1 then L ++ [L.getLastD Hash.zero] else L

/-- One level of the merkle loop, pairing step (`crypto/merkle.rs`:
`for chunk in current_level.chunks(2) { hash_pair(chunk[0], chunk[1]) }`,
applied to an even-length level). -/
def pairUp : List Hash → List Hash
  | a :: b :: rest => hash_pair a b :: pairUp rest
  | _ => []

/-- Length of a paired-up level: half the (even) level length, a fact the
termination measure of the merkle loops depends on. -/
def pairUpLength : ∀ l : List Hash, (pairUp l).length = l.length / 2
  | [] => by simp [pairUp]
  | [_] => by simp [pairUp]
  | _ :: _ :: rest => by
    simp only [pairUp, List.length_cons, pairUpLength rest]
    omega

/-- The `while current_level.len() > 1` loop of `compute_merkle_root`. -/
def rootLoop (L : List Hash) : Hash :=
  if _hL : L.length ≤ 1 then L.headD Hash.zero
  else rootLoop (pairUp (padLevel L))
termination_by L.length
decreasing_by
  simp only [pairUpLength, padLevel]
  split <;> simp <;> omega

/-- Merkle root of a list of hashes (`compute_merkle_root` in
`crypto/merkle.rs`). -/
def compute_merkle_root (hashes : List Hash) : Hash :=
  if hashes.isEmpty then Hash.zero
  else if hashes.length = 1 then hashes.headD Hash.zero
  else rootLoop hashes

/-- Merkle proof for a transaction (`MerkleProof` in `crypto/merkle.rs`):
sibling hashes from leaf to root, each tagged with `is_left`. -/
structure MerkleProof where
  index : Nat
  siblings : List (Hash × Bool)
deriving DecidableEq

/-- The fold inside `MerkleProof::verify`: combine the current hash with each
sibling, on the side indicated by `is_left`. -/
def verifyFold (tx_hash : Hash) (siblings : List (Hash × Bool)) : Hash :=
  siblings.foldl
    (fun current sb => if sb.2 then hash_pair sb.1 current else hash_pair current sb.1)
    tx_hash

/-- Verify a merkle proof against a root (`MerkleProof::verify` in
`crypto/merkle.rs`). -/
def MerkleProof.verify (p : MerkleProof) (tx_hash root : Hash) : Bool :=
  verifyFold tx_hash p.siblings == root

/-- The `while current_level.len() > 1` loop of `build_merkle_proof`,
collecting `(sibling, is_left)` pairs. -/
def proofLoop (L : List Hash) (i : Nat) : List (Hash × Bool) :=
  if _hL : L.length ≤ 1 then []
  else
    (let L' := padLevel L
     ((if i % 2 = 0 then L'.getD (i + 1) Hash.zero else L'.getD (i - 1) Hash.zero),
       i % 2 == 1)) :: proofLoop (pairUp (padLevel L)) (i / 2)
termination_by L.length
decreasing_by
  simp only [pairUpLength, padLevel]
  split <;> simp <;> omega

/-- Build a merkle proof for the leaf at `index`
(`build_merkle_proof` in `crypto/merkle.rs`). -/
def build_merkle_proof (hashes : List Hash) (index : Nat) : Option MerkleProof :=
  if hashes.isEmpty ∨ hashes.length ≤ index then none
  else if hashes.length = 1 then some ⟨index, []⟩
  else some ⟨index, proofLoop hashes index⟩

/-- All hashes in a list have byte length `n` (in the source every `Hash` is a
32-byte array; the merkle theorems take this as a hypothesis). -/
def uniformLen (l : List Hash) (n : Nat) : Prop := ∀ x ∈ l, x.bytes.length = n


/-- x-only Schnorr public key (`crypto/schnorr.rs`, `PublicKey(pub [u8; 32])`). -/
structure PublicKey where
  bytes : List Nat
deriving DecidableEq

/-- 64-byte Schnorr signature (`crypto/schnorr.rs`,
`SchnorrSignature(pub [u8; 64])`). -/
structure SchnorrSignature where
  bytes : List Nat
deriving DecidableEq

/-- Signature verification oracle: `PublicKey::verify` calls into the external
secp256k1 library, so it is a parameter of the embedding. -/
def SigVerifier : Type := PublicKey → Hash → SchnorrSignature → Bool

/-- The oracle that accepts every signature, used to instantiate concrete
scenarios. -/
def sigAlwaysOk : SigVerifier := fun _ _ _ => true

/-- Transaction input (`validation/transaction.rs`, `TxInput`). -/
structure TxInput where
  prev_tx_hash : Hash
  output_index : Nat
  signature : SchnorrSignature
  public_key : PublicKey
deriving DecidableEq

/-- Transaction output (`validation/transaction.rs`, `TxOutput`). -/
structure TxOutput where
  amount : Nat
  pubkey_hash : Hash
deriving DecidableEq

/-- Transaction (`validation/transaction.rs`, `Transaction`).  The `nonce`
field is the per-sender sequence number: spec §3 lists it and
`storage/state.rs` reads `tx.nonce` throughout the mempool logic. -/
structure Transaction where
  version : Nat
  inputs : List TxInput
  outputs : List TxOutput
  lock_time : Nat
  nonce : Nat
deriving DecidableEq

/-- Placeholder input used only as the default of in-bounds `getD` accesses
(Rust indexes `inputs[0]` after checking non-emptiness). -/
def defaultInput : TxInput := ⟨Hash.zero, 0, ⟨[]⟩, ⟨[]⟩⟩

/-- Coinbase predicate (`Transaction::is_coinbase`): exactly one input with
zero previous hash and output index `0xFFFFFFFF`. -/
def Transaction.is_coinbase (tx : Transaction) : Bool :=
  match tx.inputs with
  | [i] => i.prev_tx_hash == Hash.zero && i.output_index == 4294967295
  | _ => false

/-- Coinbase constructor (`Transaction::coinbase`). -/
def Transaction.coinbase (reward : Nat) (miner_pubkey_hash : Hash) : Transaction :=
  ⟨1, [⟨Hash.zero, 4294967295, ⟨List.replicate 64 0⟩, ⟨List.replicate 32 0⟩⟩],
    [⟨reward, miner_pubkey_hash⟩], 0, 0⟩

/-- Canonical signing encoding (`Transaction::to_bytes_for_signing`):
version, input count, inputs without signatures, output count, outputs,
lock time (all little-endian). -/
def Transaction.to_bytes_for_signing (tx : Transaction) : List Nat :=
  leBytes4 tx.version ++ leBytes4 tx.inputs.length ++
    tx.inputs.flatMap (fun i => i.prev_tx_hash.bytes ++ leBytes4 i.output_index) ++
    leBytes4 tx.outputs.length ++
    tx.outputs.flatMap (fun o => leBytes8 o.amount ++ o.pubkey_hash.bytes) ++
    leBytes4 tx.lock_time

/-- Transaction identity hash (`Transaction::hash`). -/
def Transaction.hash (tx : Transaction) : Hash := hash_bytes tx.to_bytes_for_signing

/-- Signing digest (`Transaction::signing_hash`), identical to the identity
hash. -/
def Transaction.signing_hash (tx : Transaction) : Hash :=
  hash_bytes tx.to_bytes_for_signing

/-- Wrapped sum of all output amounts (`Transaction::total_output_value`). -/
def Transaction.total_output_value (tx : Transaction) : Nat :=
  sum64 (tx.outputs.map (fun o => o.amount))

/-- Unspent transaction output (`storage/utxo.rs`, `UTXO`). -/
structure UTXO where
  amount : Nat
  pubkey_hash : Hash
  height : Nat
deriving DecidableEq

/-- UTXO key `(tx-hash, output-index)` (`storage/utxo.rs`, `UTXOKey`). -/
abbrev UTXOKey := Hash × Nat

/-- The UTXO set (`storage/utxo.rs`, `UTXOSet`): the backing `HashMap` is
modelled as an association list with at most one live entry per key (`add`
replaces, like `HashMap::insert`); lookups go through `UTXOSet.get`. -/
structure UTXOSet where
  utxos : List (UTXOKey × UTXO)
deriving DecidableEq

/-- Empty UTXO set (`UTXOSet::new`). -/
def UTXOSet.new : UTXOSet := ⟨[]⟩

/-- Key lookup (`UTXOSet::get`). -/
def UTXOSet.get (s : UTXOSet) (tx_hash : Hash) (output_index : Nat) : Option UTXO :=
  (s.utxos.find? (fun p => p.1 == (tx_hash, output_index))).map (fun p => p.2)

/-- Key membership (`UTXOSet::contains`). -/
def UTXOSet.contains (s : UTXOSet) (tx_hash : Hash) (output_index : Nat) : Bool :=
  (s.get tx_hash output_index).isSome

/-- Insert a UTXO (`UTXOSet::add`, i.e. `HashMap::insert`: replaces any
previous entry at the key). -/
def UTXOSet.add (s : UTXOSet) (tx_hash : Hash) (output_index : Nat) (utxo : UTXO) :
    UTXOSet :=
  ⟨s.utxos.filter (fun p => !(p.1 == (tx_hash, output_index))) ++
    [((tx_hash, output_index), utxo)]⟩

/-- Remove a UTXO (`UTXOSet::remove`). -/
def UTXOSet.remove (s : UTXOSet) (tx_hash : Hash) (output_index : Nat) : UTXOSet :=
  ⟨s.utxos.filter (fun p => !(p.1 == (tx_hash, output_index)))⟩

/-- Apply a transaction to the UTXO set (`UTXOSet::apply_transaction`):
remove the spent outputs (skipped for coinbase), then add the new outputs. -/
def UTXOSet.apply_transaction (s : UTXOSet) (tx : Transaction) (height : Nat) :
    UTXOSet :=
  let s1 := if tx.is_coinbase then s
    else tx.inputs.foldl (fun acc i => acc.remove i.prev_tx_hash i.output_index) s
  tx.outputs.enum.foldl
    (fun acc p => acc.add tx.hash p.1 ⟨p.2.amount, p.2.pubkey_hash, height⟩) s1

/-- Revert a transaction (`UTXOSet::revert_transaction`): remove the created
outputs, then add back the provided spent outputs. -/
def UTXOSet.revert_transaction (s : UTXOSet) (tx : Transaction)
    (spent_utxos : List (UTXOKey × UTXO)) : UTXOSet :=
  let s1 := tx.outputs.enum.foldl (fun acc p => acc.remove tx.hash p.1) s
  spent_utxos.foldl (fun acc p => acc.add p.1.1 p.1.2 p.2) s1

/-- Owner lookup (`UTXOSet::get_by_pubkey_hash`): compares only the first 20
bytes of the stored `pubkey_hash` with the caller hash. -/
def UTXOSet.get_by_pubkey_hash (s : UTXOSet) (pubkey_hash : Hash) :
    List (UTXOKey × UTXO) :=
  s.utxos.filter
    (fun p => p.2.pubkey_hash.bytes.take 20 == pubkey_hash.bytes.take 20)

/-- Balance of an owner (`UTXOSet::get_balance`). -/
def UTXOSet.get_balance (s : UTXOSet) (pubkey_hash : Hash) : Nat :=
  sum64 ((s.get_by_pubkey_hash pubkey_hash).map (fun p => p.2.amount))

/-- Signature and ownership validation (`Transaction::verify_signatures`):
for every input of a non-coinbase transaction, the signature must verify and
`hash_bytes(public_key)` must equal the referenced UTXO pubkey hash (the
source compares the full 32-byte values). -/
def Transaction.verify_signatures (tx : Transaction) (sigOk : SigVerifier)
    (utxo_set : UTXOSet) : Bool :=
  if tx.is_coinbase then true
  else
    tx.inputs.all (fun input =>
      sigOk input.public_key tx.signing_hash input.signature &&
      match utxo_set.get input.prev_tx_hash input.output_index with
      | some utxo => hash_bytes input.public_key.bytes == utxo.pubkey_hash
      | none => false)

/-- Wrapped sum of the referenced input amounts
(`Transaction::total_input_value`). -/
def Transaction.total_input_value (tx : Transaction) (utxo_set : UTXOSet) : Nat :=
  sum64 (tx.inputs.filterMap
    (fun i => (utxo_set.get i.prev_tx_hash i.output_index).map (fun u => u.amount)))

/-- Transaction fee (`Transaction::fee`, `saturating_sub`). -/
def Transaction.fee (tx : Transaction) (utxo_set : UTXOSet) : Nat :=
  tx.total_input_value utxo_set - tx.total_output_value

/-- Block header (`consensus/block.rs`, `BlockHeader`, including the
`chain_id` field that `storage/state.rs` validates; spec §3). -/
structure BlockHeader where
  version : Nat
  chain_id : Nat
  prev_hash : Hash
  merkle_root : Hash
  timestamp : Nat
  difficulty_target : Nat
  nonce : Nat
deriving DecidableEq

/-- Canonical header encoding (`BlockHeader::to_bytes`), `chain_id` after the
version. -/
def BlockHeader.to_bytes (h : BlockHeader) : List Nat :=
  leBytes4 h.version ++ [h.chain_id % 256] ++ h.prev_hash.bytes ++
    h.merkle_root.bytes ++ leBytes8 h.timestamp ++ leBytes4 h.difficulty_target ++
    leBytes8 h.nonce

/-- Header hash (`BlockHeader::hash`). -/
def BlockHeader.hash (h : BlockHeader) : Hash := hash_bytes h.to_bytes

/-- Block (`consensus/block.rs`, `Block`). -/
structure Block where
  header : BlockHeader
  transactions : List Transaction
deriving DecidableEq

/-- Block hash (`Block::hash`). -/
def Block.hash (b : Block) : Hash := b.header.hash

/-- Per-block index entry (`storage/state.rs`, `BlockIndexEntry`). -/
structure BlockIndexEntry where
  header : BlockHeader
  height : Nat
  total_issued : Nat
  undo_data : List (UTXOKey × UTXO)
deriving DecidableEq

/-- Mempool capacity (`MAX_MEMPOOL_BYTES` in `storage/state.rs`): 300 MiB. -/
def MAX_MEMPOOL_BYTES : Nat := 300 * 1024 * 1024

/-- Minimum relay fee rate (`MIN_RELAY_FEE` in `storage/state.rs`). -/
def MIN_RELAY_FEE : Nat := 1

/-- Serialized transaction size under the fixed binary codec
(`bincode::serialized_size` with fixed-width integers): 4-byte `u32`s, 8-byte
`u64`s and length prefixes, 32-byte hashes and keys, 64-byte signatures. -/
def txSerializedSize (tx : Transaction) : Nat :=
  4 + 8 + 148 * tx.inputs.length + 8 + 40 * tx.outputs.length + 4 + 8

/-- The chain state (`storage/state.rs`, `ChainState`).  The `db` handle is an
external adapter and is omitted: persistence does not feed back into the
in-memory fields modelled here. -/
structure ChainState where
  utxo_set : UTXOSet
  height : Nat
  tip_hash : Hash
  total_issued : Nat
  difficulty : Nat
  block_index : Hash → Option BlockIndexEntry
  full_blocks : Hash → Option Block
  height_to_hash : Nat → Option Hash
  mempool : List (Hash × Transaction)
  next_nonce : Hash → Option Nat
  recent_block_timestamps : List Nat

/-- Fresh chain state from a genesis block (`ChainState::new`): apply the
genesis transactions at height 0 and index the genesis block. -/
def ChainState.new (genesis : Block) : ChainState :=
  { utxo_set := genesis.transactions.foldl
      (fun s tx => s.apply_transaction tx 0) UTXOSet.new
    height := 0
    tip_hash := genesis.hash
    total_issued := 0
    difficulty := genesis.header.difficulty_target
    block_index := fun h =>
      if h = genesis.hash then some ⟨genesis.header, 0, 0, []⟩ else none
    full_blocks := fun h => if h = genesis.hash then some genesis else none
    height_to_hash := fun n => if n = 0 then some genesis.hash else none
    mempool := []
    next_nonce := fun _ => none
    recent_block_timestamps := [] }

/-- Insertion into a sorted list, the sorting model for `sort_unstable` (on
naturals every sort yields the same list, and insertion sort reduces by
structural recursion). -/
def insertSorted (x : Nat) : List Nat → List Nat
  | [] => [x]
  | y :: t => if x ≤ y then x :: y :: t else y :: insertSorted x t

/-- Sort a list of naturals (`Vec::sort_unstable` on `u64` timestamps). -/
def sortNat (l : List Nat) : List Nat := l.foldr insertSorted []

/-- Median of the recent block timestamps
(`ChainState::calculate_median_time`). -/
def ChainState.calculate_median_time (s : ChainState) : Nat :=
  if s.recent_block_timestamps = [] then 0
  else
    let times := sortNat s.recent_block_timestamps
    times.getD (times.length / 2) 0

/-- Timestamp rules (`ChainState::validate_block_timestamp`), with the wall
clock `now` passed explicitly: not more than 2 h in the future, and not
before the median of the last 11 timestamps minus 1 h once a median exists. -/
def ChainState.validate_block_timestamp (s : ChainState) (now timestamp : Nat) :
    Except String Unit :=
  if timestamp > now + 2 * 3600 then
    .error ("Block timestamp is too far in future")
  else
    let median_time := s.calculate_median_time
    if median_time > 0 then
      if timestamp < median_time - 3600 then
        .error ("Block timestamp is too old")
      else .ok ()
    else .ok ()

/-- The per-input loop of `apply_block`: look every input up in the pre-state
UTXO set, collecting `(key, utxo)` undo pairs, failing on a missing UTXO. -/
def collectSpent (u : UTXOSet) : List TxInput → Except String (List (UTXOKey × UTXO))
  | [] => .ok []
  | i :: rest =>
    match u.get i.prev_tx_hash i.output_index with
    | some utxo =>
      (collectSpent u rest).map
        (fun l => ((i.prev_tx_hash, i.output_index), utxo) :: l)
    | none => .error ("UTXO missing for transaction")

/-- The per-transaction validation step of `apply_block` (the
`for tx in &block.transactions` loop body), threading the accumulator
`(spent_utxos, total_subsidy, coinbase_reward, block_fees)`. -/
def applyTxCheck (sigOk : SigVerifier) (uset : UTXOSet) (total_issued new_height : Nat)
    (acc : List (UTXOKey × UTXO) × Nat × Nat × Nat) (tx : Transaction) :
    Except String (List (UTXOKey × UTXO) × Nat × Nat × Nat) :=
  let (spent, subsidy, cbReward, fees) := acc
  if tx.is_coinbase then
    if cbReward > 0 then .error ("Multiple coinbase transactions in block")
    else .ok (spent, calculate_block_reward new_height total_issued,
      tx.total_output_value, fees)
  else
    if tx.verify_signatures sigOk uset = false then
      .error ("Invalid transaction signature")
    else
      let input_val := tx.total_input_value uset
      let output_val := tx.total_output_value
      if input_val < output_val then .error ("Insufficient input in transaction")
      else
        match collectSpent uset tx.inputs with
        | .ok txSpent =>
          .ok (spent ++ txSpent, subsidy, cbReward,
            satAdd64 fees (input_val - output_val))
        | .error e => .error e

/-- The whole transaction-validation phase of `apply_block`. -/
def validateBlockTxs (sigOk : SigVerifier) (uset : UTXOSet)
    (total_issued new_height : Nat) (txs : List Transaction) :
    Except String (List (UTXOKey × UTXO) × Nat × Nat × Nat) :=
  txs.foldlM (applyTxCheck sigOk uset total_issued new_height) ([], 0, 0, 0)

/-- Mempool lookup by transaction hash (`HashMap::get`). -/
def mempoolLookup (m : List (Hash × Transaction)) (h : Hash) : Option Transaction :=
  (m.find? (fun p => p.1 == h)).map (fun p => p.2)

/-- Mempool removal by transaction hash (`HashMap::remove`). -/
def mempoolRemoveKey (m : List (Hash × Transaction)) (h : Hash) :
    List (Hash × Transaction) :=
  m.filter (fun p => !(p.1 == h))

/-- Remove one transaction from the mempool and clear the sender nonce when no
transaction from the same sender remains (the loop body over `txs_to_remove`
in `apply_block`). -/
def removeWithNonceReset (m : List (Hash × Transaction)) (nn : Hash → Option Nat)
    (h : Hash) : List (Hash × Transaction) × (Hash → Option Nat) :=
  match mempoolLookup m h with
  | none => (m, nn)
  | some tx =>
    let m2 := mempoolRemoveKey m h
    match tx.inputs with
    | [] => (m2, nn)
    | i0 :: _ =>
      let sender_hash := hash_bytes i0.public_key.bytes
      let has_more := m2.any (fun p =>
        !p.2.inputs.isEmpty &&
          (p.2.inputs.headD defaultInput).public_key == i0.public_key)
      if has_more then (m2, nn)
      else (m2, fun k => if k = sender_hash then none else nn k)

/-- Keys spent by the block (the `block_inputs` set of `apply_block`). -/
def blockInputKeys (b : Block) : List UTXOKey :=
  (b.transactions.filter (fun tx => !tx.is_coinbase)).flatMap
    (fun tx => tx.inputs.map (fun i => (i.prev_tx_hash, i.output_index)))

/-- Mempool transactions that conflict with the new block. -/
def conflictingMempoolHashes (m : List (Hash × Transaction)) (keys : List UTXOKey) :
    List Hash :=
  (m.filter (fun p => p.2.inputs.any
    (fun i => keys.contains (i.prev_tx_hash, i.output_index)))).map (fun p => p.1)

/-- Block-induced mempool eviction of `apply_block`: remove the mined
transactions and every conflicting transaction, resetting sender nonces. -/
def cleanMempool (m : List (Hash × Transaction)) (nn : Hash → Option Nat)
    (b : Block) : List (Hash × Transaction) × (Hash → Option Nat) :=
  let toRemove := b.transactions.map Transaction.hash ++
    conflictingMempoolHashes m (blockInputKeys b)
  toRemove.foldl (fun acc h => removeWithNonceReset acc.1 acc.2 h) (m, nn)

/-- Apply a block (`ChainState::apply_block`).  Returns the undo data on
success; on error the returned state is the (unchanged) input state.  `now` is
the wall clock; height arithmetic is explicit `u64` arithmetic. -/
def ChainState.apply_block (sigOk : SigVerifier) (now : Nat) (s : ChainState)
    (block : Block) : Except String (List (UTXOKey × UTXO)) × ChainState :=
  if block.header.chain_id ≠ CHAIN_ID then
    (.error ("Block has invalid chain_id"), s)
  else
    match s.validate_block_timestamp now block.header.timestamp with
    | .error e => (.error e, s)
    | .ok _ =>
      if block.header.prev_hash ≠ s.tip_hash ∧ s.height > 0 then
        (.error ("Block does not connect to current tip"), s)
      else
        let new_height := (s.height + 1) % U64
        match validateBlockTxs sigOk s.utxo_set s.total_issued new_height
            block.transactions with
        | .error e => (.error e, s)
        | .ok (spent_utxos, total_subsidy, coinbase_reward, block_fees) =>
          if coinbase_reward > (total_subsidy + block_fees) % U64 then
            (.error ("Coinbase reward too high"), s)
          else
            let cleaned := cleanMempool s.mempool s.next_nonce block
            let utxo2 := block.transactions.foldl
              (fun u tx => u.apply_transaction tx new_height) s.utxo_set
            let ti2 := satAdd64 s.total_issued total_subsidy
            let ts1 := s.recent_block_timestamps ++ [block.header.timestamp]
            (.ok spent_utxos,
              { s with
                utxo_set := utxo2
                total_issued := ti2
                height := new_height
                tip_hash := block.hash
                difficulty := block.header.difficulty_target
                height_to_hash := fun n =>
                  if n = new_height then some block.hash else s.height_to_hash n
                recent_block_timestamps := if ts1.length > 11 then ts1.tail else ts1
                block_index := fun h =>
                  if h = block.hash then
                    some ⟨block.header, new_height, ti2, spent_utxos⟩
                  else s.block_index h
                full_blocks := fun h =>
                  if h = block.hash then some block else s.full_blocks h
                mempool := cleaned.1
                next_nonce := cleaned.2 })

/-- Revert a block (`ChainState::revert_block`): undo the transactions in
reverse order, drop the tip from `height_to_hash`, decrement the height
(wrapping `u64` subtraction), restore `total_issued` and `difficulty` from the
parent index entry when present. -/
def ChainState.revert_block (s : ChainState) (block : Block)
    (spent_utxos : List (UTXOKey × UTXO)) : ChainState :=
  let u2 := block.transactions.reverse.foldl
    (fun u tx =>
      let tx_spent := spent_utxos.filter
        (fun p => tx.inputs.any (fun i => i.prev_tx_hash == p.1.1))
      u.revert_transaction tx tx_spent) s.utxo_set
  { s with
    utxo_set := u2
    height_to_hash := fun n => if n = s.height then none else s.height_to_hash n
    height := (s.height + (U64 - 1)) % U64
    tip_hash := block.header.prev_hash
    recent_block_timestamps := s.recent_block_timestamps.dropLast
    total_issued := match s.block_index block.header.prev_hash with
      | some entry => entry.total_issued
      | none => s.total_issued
    difficulty := match s.block_index block.header.prev_hash with
      | some entry => entry.header.difficulty_target
      | none => s.difficulty }

/-- Revert the current tip (`ChainState::revert_tip`). -/
def ChainState.revert_tip (s : ChainState) : Except String Unit × ChainState :=
  match s.full_blocks s.tip_hash with
  | none => (.error ("Tip block not found"), s)
  | some block =>
    match s.block_index s.tip_hash with
    | none => (.error ("Tip index not found"), s)
    | some entry => (.ok (), s.revert_block block entry.undo_data)

/-- Block height lookup (`ChainState::get_block_height`). -/
def ChainState.get_block_height (s : ChainState) (h : Hash) : Option Nat :=
  (s.block_index h).map (fun e => e.height)

/-- Main-chain hash at a height (`ChainState::get_block_hash_at_height`). -/
def ChainState.get_block_hash_at_height (s : ChainState) (target_height : Nat) :
    Option Hash :=
  s.height_to_hash target_height

/-- Reorg depth and checkpoint limits (`ChainState::validate_reorg_depth`):
the depth bound and the checkpoint-height bound on the common ancestor.  The
depth is the wrapping `u64` difference `height - common_ancestor_height`. -/
def ChainState.validate_reorg_depth (s : ChainState)
    (common_ancestor_height : Nat) : Except String Unit :=
  let reorg_depth := (s.height + (U64 - common_ancestor_height % U64)) % U64
  if reorg_depth > MAX_REORG_DEPTH then
    .error ("Reorg depth exceeds max allowed depth")
  else if CHECKPOINTS.any (fun cp => common_ancestor_height < cp.1) then
    .error ("Cannot reorg past checkpoint")
  else .ok ()

/-- The trace-back loop of `reorganize` (`while let Some(entry) = ...`),
with explicit fuel since the Rust loop can diverge on a malformed index.
Returns the forward path (ancestor side first) and the final cursor hash. -/
def tracebackLoop (s : ChainState) : Nat → Hash → List Hash →
    Option (List Hash × Hash)
  | 0, _, _ => none
  | fuel + 1, curr, acc =>
    match s.block_index curr with
    | none => some (acc, curr)
    | some entry =>
      if s.get_block_hash_at_height entry.height = some curr then some (acc, curr)
      else if entry.height = 0 then some (curr :: acc, curr)
      else tracebackLoop s fuel entry.header.prev_hash (curr :: acc)

/-- The `while self.height > common_height` revert loop of `reorganize`,
with fuel (each successful revert lowers the height by one). -/
def revertLoop (common_height : Nat) : Nat → ChainState →
    Except String Unit × ChainState
  | 0, s =>
    if s.height > common_height then (.error ("revert loop fuel exhausted"), s)
    else (.ok (), s)
  | fuel + 1, s =>
    if s.height > common_height then
      match s.revert_tip with
      | (.ok _, s2) => revertLoop common_height fuel s2
      | (.error e, s2) => (.error e, s2)
    else (.ok (), s)

/-- The forward-apply loop of `reorganize` over the collected path; on
failure the chain is left at the deepest state reached. -/
def applyChainHashes (sigOk : SigVerifier) (now : Nat) :
    List Hash → ChainState → Except String Unit × ChainState
  | [], s => (.ok (), s)
  | h :: rest, s =>
    match s.full_blocks h with
    | none => (.error ("Block data missing during re-org"), s)
    | some block =>
      match ChainState.apply_block sigOk now s block with
      | (.ok _, s2) => applyChainHashes sigOk now rest s2
      | (.error e, s2) => (.error e, s2)

/-- Chain reorganization (`ChainState::reorganize`): trace the fork back to
the common ancestor, enforce the reorg limits, revert to the ancestor, apply
the fork path. -/
def ChainState.reorganize (sigOk : SigVerifier) (now fuel : Nat) (s : ChainState)
    (target_hash : Hash) : Except String Unit × ChainState :=
  match tracebackLoop s fuel target_hash [] with
  | none => (.error ("trace-back loop exceeded fuel"), s)
  | some (new_chain, currHash) =>
    match s.get_block_height currHash with
    | none => (.error ("Common ancestor not in index"), s)
    | some common_height =>
      match s.validate_reorg_depth common_height with
      | .error e => (.error e, s)
      | .ok _ =>
        match revertLoop common_height fuel s with
        | (.error e, s2) => (.error e, s2)
        | (.ok _, s2) => applyChainHashes sigOk now new_chain s2

/-- Record a side-chain block (`ChainState::index_block`): no-op when already
indexed; height derived from the parent when known, else 0. -/
def ChainState.index_block (s : ChainState) (block : Block) : ChainState :=
  if (s.block_index block.hash).isSome then s
  else
    let height := match s.get_block_height block.header.prev_hash with
      | some h => (h + 1) % U64
      | none => 0
    { s with
      block_index := fun h =>
        if h = block.hash then some ⟨block.header, height, 0, []⟩
        else s.block_index h
      full_blocks := fun h =>
        if h = block.hash then some block else s.full_blocks h }

/-- Total mempool size in bytes (`ChainState::mempool_bytes`). -/
def ChainState.mempool_bytes (s : ChainState) : Nat :=
  sum64 (s.mempool.map (fun p => txSerializedSize p.2))

/-- Fee rate in base units per byte (`ChainState::calculate_fee_rate`). -/
def calculate_fee_rate (tx : Transaction) (fee : Nat) : Nat :=
  fee / max (txSerializedSize tx) 1

/-- Fee rate of a stored transaction against a UTXO set (the closure used by
the eviction `min_by_key`). -/
def feeRateOf (u : UTXOSet) (t : Transaction) : Nat :=
  calculate_fee_rate t (t.total_input_value u - t.total_output_value)

/-- First mempool entry of minimal fee rate (`iter().min_by_key(..)`). -/
def minFeeRateEntry (m : List (Hash × Transaction)) (u : UTXOSet) : Option Hash :=
  (m.foldl (fun best p =>
    match best with
    | none => some p
    | some q => if feeRateOf u p.2 < feeRateOf u q.2 then some p else some q)
    none).map (fun p => p.1)

/-- Successful insertion tail of `add_to_mempool`: store the transaction and
advance the sender nonce. -/
def mempoolInsertNew (s : ChainState) (tx : Transaction)
    (m : List (Hash × Transaction)) : Except String Unit × ChainState :=
  (.ok (),
    { s with
      mempool := m ++ [(tx.hash, tx)]
      next_nonce := match tx.inputs with
        | [] => s.next_nonce
        | i0 :: _ => fun k =>
          if k = hash_bytes i0.public_key.bytes then some ((tx.nonce + 1) % U64)
          else s.next_nonce k })

/-- The nonce-sequencing step of `add_to_mempool` (step 5): either an error,
or the mempool after a possible replacement removal. -/
def mempoolNonceStep (s : ChainState) (tx : Transaction) (fee_rate : Nat) :
    Except String (List (Hash × Transaction)) :=
  match tx.inputs with
  | [] => .ok s.mempool
  | i0 :: _ =>
    let sender_hash := hash_bytes i0.public_key.bytes
    let expected_nonce := (s.next_nonce sender_hash).getD 0
    let existing := (s.mempool.find? (fun p =>
      !p.2.inputs.isEmpty &&
        (p.2.inputs.headD defaultInput).public_key == i0.public_key &&
        p.2.nonce == tx.nonce)).map (fun p => p.2.hash)
    match existing with
    | some existing_hash =>
      match mempoolLookup s.mempool existing_hash with
      | some existing_tx =>
        let existing_fee := existing_tx.total_input_value s.utxo_set -
          existing_tx.total_output_value
        if fee_rate ≤ calculate_fee_rate existing_tx existing_fee then
          .error ("Replacement transaction must have higher fee rate")
        else .ok (mempoolRemoveKey s.mempool existing_hash)
      | none => .ok s.mempool
    | none =>
      if tx.nonce < expected_nonce then
        .error ("Transaction nonce is too old")
      else if tx.nonce > expected_nonce then
        .error ("Transaction nonce gap")
      else .ok s.mempool

/-- Steps 6 and 7 of `add_to_mempool` (mempool double-spend check, capacity
enforcement with single eviction, insertion and nonce update), applied to the
mempool `m1` left by the nonce step. -/
def mempoolAddFinish (s : ChainState) (tx : Transaction)
    (m1 : List (Hash × Transaction)) : Except String Unit × ChainState :=
  if tx.inputs.any (fun input => m1.any (fun p => p.2.inputs.any (fun i =>
      i.prev_tx_hash == input.prev_tx_hash &&
        i.output_index == input.output_index))) then
    (.error ("Transaction double-spends an existing mempool transaction"),
      { s with mempool := m1 })
  else
    let tx_size := txSerializedSize tx
    if sum64 (m1.map (fun p => txSerializedSize p.2)) + tx_size >
        MAX_MEMPOOL_BYTES then
      match minFeeRateEntry m1 s.utxo_set with
      | some evict_hash =>
        let m2 := mempoolRemoveKey m1 evict_hash
        if sum64 (m2.map (fun p => txSerializedSize p.2)) + tx_size >
            MAX_MEMPOOL_BYTES then
          (.error ("Mempool full"), { s with mempool := m2 })
        else mempoolInsertNew s tx m2
      | none => (.error ("Mempool full"), { s with mempool := m1 })
    else mempoolInsertNew s tx m1

/-- Mempool admission (`ChainState::add_to_mempool`).  On error the returned
state carries exactly the mutations the source performs before the failing
check (the replacement removal of step 5, the eviction of step 7). -/
def ChainState.add_to_mempool (sigOk : SigVerifier) (s : ChainState)
    (tx : Transaction) : Except String Unit × ChainState :=
  if (mempoolLookup s.mempool tx.hash).isSome then
    (.error ("Transaction already in mempool"), s)
  else if tx.is_coinbase then
    (.error ("Coinbase transaction cannot be added to mempool"), s)
  else if tx.verify_signatures sigOk s.utxo_set = false then
    (.error ("Invalid transaction signature"), s)
  else if tx.total_input_value s.utxo_set < tx.total_output_value then
    (.error ("Insufficient input"), s)
  else if calculate_fee_rate tx
      (tx.total_input_value s.utxo_set - tx.total_output_value) <
      MIN_RELAY_FEE then
    (.error ("Transaction fee too low"), s)
  else
    match mempoolNonceStep s tx (calculate_fee_rate tx
        (tx.total_input_value s.utxo_set - tx.total_output_value)) with
    | .error e => (.error e, s)
    | .ok m1 => mempoolAddFinish s tx m1

/-- The `(prev_tx_hash, output_index)` keys referenced by the inputs of a
transaction. -/
def txInputKeys (tx : Transaction) : List UTXOKey :=
  tx.inputs.map (fun i => (i.prev_tx_hash, i.output_index))

/-- A small concrete genesis block used by the concrete scenarios. -/
def demoGenesis : Block :=
  ⟨⟨1, 1, Hash.zero, Hash.zero, 900, 0x1d00ffff, 0⟩,
    [Transaction.coinbase 10000 (hash_bytes [42])]⟩

/-- The corresponding fresh chain state. -/
def demoState : ChainState := ChainState.new demoGenesis

/-- A block whose `prev_hash` matches nothing in `demoState`. -/
def demoRogue : Block := ⟨⟨1, 1, ⟨[7]⟩, Hash.zero, 900, 0x1d00ffff, 0⟩, []⟩

/-- A valid height-1 extension of `demoGenesis`. -/
def demoB1 : Block :=
  ⟨⟨1, 1, demoGenesis.hash, Hash.zero, 1000, 0x1d00ffff, 1⟩,
    [Transaction.coinbase 5000 (hash_bytes [1])]⟩

/-- The chain state after applying `demoB1`. -/
def demoState1 : ChainState :=
  (ChainState.apply_block sigAlwaysOk 1000 demoState demoB1).2

/-- The coinbase of `demoB1` (value 5000, same miner key `hash_bytes [1]`). -/
def demoDupCb : Transaction := Transaction.coinbase 5000 (hash_bytes [1])

/-- A height-2 block whose coinbase is byte-identical to the one of `demoB1`,
so both transactions share a hash and hence a UTXO key. -/
def demoB2dup : Block :=
  ⟨⟨1, 1, demoB1.hash, Hash.zero, 1000, 0x1d00ffff, 2⟩, [demoDupCb]⟩

/-- The chain state after applying `demoB1` and then `demoB2dup`. -/
def demoState2dup : ChainState :=
  (ChainState.apply_block sigAlwaysOk 1000 demoState1 demoB2dup).2



/-- A side block with an unknown parent; `index_block` records it at height 0. -/
def demoSide : Block := ⟨⟨1, 1, ⟨[9]⟩, Hash.zero, 900, 0x1d00ffff, 3⟩, []⟩

/-- `demoState` with `demoSide` indexed (height derived as 0). -/
def demoStateIdx : ChainState := ChainState.index_block demoState demoSide

/-- A handcrafted state at height 20 whose index knows `demoSide` at height 0:
a reorg towards `demoSide` has depth 20. -/
def demoDeep : ChainState :=
  { demoState with
    height := 20
    block_index := fun h =>
      if h = demoSide.hash then some ⟨demoSide.header, 0, 0, []⟩
      else demoState.block_index h }



/-- A concrete signer key. -/
def demoPk : PublicKey := ⟨List.replicate 32 5⟩

/-- Hash of the transaction that created the demo UTXO. -/
def demoPrevHash : Hash := hash_bytes [9]

/-- A pubkey hash that agrees with `hash_bytes demoPk.bytes` on the first 20
bytes but differs later. -/
def demoMismatchPh : Hash := ⟨1 :: (List.replicate 19 5 ++ 7 :: List.replicate 12 5)⟩

/-- UTXO set whose only entry carries the 20-byte-prefix-matching hash. -/
def demoUtxos6 : UTXOSet := UTXOSet.new.add demoPrevHash 0 ⟨100, demoMismatchPh, 1⟩

/-- UTXO set whose only entry carries the exact full pubkey hash. -/
def demoUtxos6ok : UTXOSet :=
  UTXOSet.new.add demoPrevHash 0 ⟨100, hash_bytes demoPk.bytes, 1⟩

/-- Transaction spending the demo UTXO with `demoPk`. -/
def demoTx6 : Transaction :=
  ⟨1, [⟨demoPrevHash, 0, ⟨List.replicate 64 0⟩, demoPk⟩], [⟨50, ⟨[]⟩⟩], 0, 0⟩



/-- Sender key A for the mempool scenario. -/
def demoPkA : PublicKey := ⟨List.replicate 32 11⟩

/-- Sender key B for the mempool scenario. -/
def demoPkB : PublicKey := ⟨List.replicate 32 12⟩

/-- Funding outpoints for the mempool scenario. -/
def demoH1 : Hash := hash_bytes [1]

/-- Second funding outpoint. -/
def demoH3 : Hash := hash_bytes [3]

/-- Dummy signature accepted by `sigAlwaysOk`. -/
def demoSig0 : SchnorrSignature := ⟨List.replicate 64 0⟩

/-- UTXO set funding keys A and B. -/
def demoMempoolUtxos : UTXOSet :=
  (UTXOSet.new.add demoH1 0 ⟨100000, hash_bytes demoPkA.bytes, 1⟩).add demoH3 0
    ⟨100000, hash_bytes demoPkB.bytes, 1⟩

/-- Chain state for the mempool scenario. -/
def demoMempoolState : ChainState := { demoState with utxo_set := demoMempoolUtxos }

/-- Transaction from A, nonce 0, spending the first outpoint. -/
def demoTxA : Transaction := ⟨1, [⟨demoH1, 0, demoSig0, demoPkA⟩], [⟨1, ⟨[]⟩⟩], 0, 0⟩

/-- Transaction from B, nonce 0, spending the second outpoint. -/
def demoTxB : Transaction := ⟨1, [⟨demoH3, 0, demoSig0, demoPkB⟩], [⟨1, ⟨[]⟩⟩], 0, 0⟩

/-- Replacement from A (same nonce 0, higher fee rate) that also spends the
outpoint already spent by `demoTxB`. -/
def demoTxA2 : Transaction :=
  ⟨1, [⟨demoH1, 0, demoSig0, demoPkA⟩, ⟨demoH3, 0, demoSig0, demoPkB⟩],
    [⟨1, ⟨[2]⟩⟩], 0, 0⟩

/-- Mempool state after admitting `demoTxA`. -/
def demoMempState1 : ChainState :=
  (ChainState.add_to_mempool sigAlwaysOk demoMempoolState demoTxA).2

/-- Mempool state after admitting `demoTxA` and `demoTxB`. -/
def demoMempState2 : ChainState :=
  (ChainState.add_to_mempool sigAlwaysOk demoMempState1 demoTxB).2

/-- The reference node of the reorg-equivalence spec sentence: a node that
receives the given blocks in order and applies each with `apply_block`,
stopping at the first failure. -/
def applyBlocks (sigOk : SigVerifier) (now : Nat) :
    List Block → ChainState → Except String Unit × ChainState
  | [], s => (.ok (), s)
  | b :: rest, s =>
    match ChainState.apply_block sigOk now s b with
    | (.ok _, s2) => applyBlocks sigOk now rest s2
    | (.error e, s2) => (.error e, s2)

/-- A well-formed application step: the block applies successfully, connects
to the tip, the tip's index entry agrees with the state, every output key the
block creates is fresh, the height does not wrap, the timestamp window is not
yet full (so a revert restores it exactly), and the block's hash is new to
the index and the block store. -/
def goodStep (sigOk : SigVerifier) (now : Nat) (s : ChainState) (b : Block) :
    Prop :=
  (∃ spent, (ChainState.apply_block sigOk now s b).1 = .ok spent) ∧
  b.header.prev_hash = s.tip_hash ∧
  (∃ e, s.block_index s.tip_hash = some e ∧ e.total_issued = s.total_issued ∧
    e.header.difficulty_target = s.difficulty) ∧
  (∀ tx ∈ b.transactions, ∀ j, j < tx.outputs.length →
    s.utxo_set.get tx.hash j = none) ∧
  s.height + 1 < U64 ∧
  s.recent_block_timestamps.length ≤ 10 ∧
  s.block_index b.hash = none ∧
  s.full_blocks b.hash = none

/-- The end state reached by applying a list of blocks from a start state,
each step being well formed. -/
def chainRel (sigOk : SigVerifier) (now : Nat) :
    ChainState → List Block → ChainState → Prop
  | s, [], t => t = s
  | s, b :: rest, t =>
    goodStep sigOk now s b ∧
    chainRel sigOk now (ChainState.apply_block sigOk now s b).2 rest t

/-- Observational simulation between chain states: the consensus-relevant
scalar fields agree, the UTXO sets agree pointwise, and the left state's
index and block store contain everything the right one records. -/
def simTo (t m : ChainState) : Prop :=
  t.height = m.height ∧ t.tip_hash = m.tip_hash ∧
  t.total_issued = m.total_issued ∧ t.difficulty = m.difficulty ∧
  t.recent_block_timestamps = m.recent_block_timestamps ∧
  (∀ kh ki, t.utxo_set.get kh ki = m.utxo_set.get kh ki) ∧
  (∀ h e, m.block_index h = some e → t.block_index h = some e) ∧
  (∀ h blk, m.full_blocks h = some blk → t.full_blocks h = some blk)

/-- First fork block for the reorg scenarios: a sibling of `demoB1`. -/
def demoBf1 : Block :=
  ⟨⟨1, 1, demoGenesis.hash, Hash.zero, 1001, 0x1d00ffff, 7⟩,
    [Transaction.coinbase 4000 (hash_bytes [2])]⟩

/-- Second fork block, child of `demoBf1`. -/
def demoBf2 : Block :=
  ⟨⟨1, 1, demoBf1.hash, Hash.zero, 1002, 0x1d00ffff, 8⟩,
    [Transaction.coinbase 4000 (hash_bytes [3])]⟩

/-- Node state before the reorg: the main block `demoB1` applied and the two
fork blocks indexed as side blocks. -/
def demoReorgSrc : ChainState :=
  ChainState.index_block (ChainState.index_block demoState1 demoBf1) demoBf2

/-- The fresh node of the reorg scenario: `demoBf1` then `demoBf2` applied
directly on the common ancestor. -/
def demoSB : ChainState :=
  (applyBlocks sigAlwaysOk 1000 [demoBf1, demoBf2] demoState).2

/-- A handcrafted common-ancestor state with a full 11-slot timestamp window,
tip `hash_bytes [100]` at height 11. -/
def demoAncState : ChainState :=
  { utxo_set := UTXOSet.new
    height := 11
    tip_hash := hash_bytes [100]
    total_issued := 0
    difficulty := 0x1d00ffff
    block_index := fun h =>
      if h = hash_bytes [100] then
        some ⟨⟨1, 1, Hash.zero, Hash.zero, 0, 0x1d00ffff, 0⟩, 11, 0, []⟩
      else none
    full_blocks := fun _ => none
    height_to_hash := fun n => if n = 11 then some (hash_bytes [100]) else none
    mempool := []
    next_nonce := fun _ => none
    recent_block_timestamps :=
      [1000, 2000, 3000, 4000, 5000, 6000, 7000, 8000, 9000, 10000, 11000] }

/-- Main-chain block on `demoAncState` (timestamp 11500, empty body). -/
def demoMainA : Block :=
  ⟨⟨1, 1, hash_bytes [100], Hash.zero, 11500, 0x1d00ffff, 5⟩, []⟩

/-- Fork block on `demoAncState` (timestamp 3000, empty body): acceptable
against the ancestor's timestamp median 6000, too old against the mangled
post-revert median 7000. -/
def demoForkB : Block :=
  ⟨⟨1, 1, hash_bytes [100], Hash.zero, 3000, 0x1d00ffff, 9⟩, []⟩

/-- The reorg-attempting node of the timestamp counterexample: applied
`demoMainA`, then indexed the fork block `demoForkB`. -/
def demoTsSrc : ChainState :=
  ChainState.index_block
    (ChainState.apply_block sigAlwaysOk 20000 demoAncState demoMainA).2 demoForkB


set_option maxRecDepth 100000

theorem calculate_block_reward_le_remaining (h issued : Nat) :
    calculate_block_reward h issued ≤ PUBLIC_ISSUANCE - issued := by
  simp only [calculate_block_reward]
  split_ifs with h1 h2 h3
  · exact Nat.zero_le _
  · exact Nat.zero_le _
  · omega
  · exact Nat.min_le_right _ _

theorem issuedAfter_le (n : Nat) : issuedAfter n ≤ PUBLIC_ISSUANCE := by
  induction n with
  | zero => simp [issuedAfter]
  | succ n ih =>
    have hr := calculate_block_reward_le_remaining (n + 1) (issuedAfter n)
    have hsum : issuedAfter n + calculate_block_reward (n + 1) (issuedAfter n) ≤
        PUBLIC_ISSUANCE := by omega
    have hP : PUBLIC_ISSUANCE ≤ U64 - 1 := by decide
    simp only [issuedAfter, satAdd64]
    omega

/-- Claim C1: for every height `h ≥ 1` and every `total_issued ≤
PUBLIC_ISSUANCE`, `calculate_block_reward h total_issued` is at most
`PUBLIC_ISSUANCE - total_issued`; consequently, accumulating the successive
rewards along any chain starting from `total_issued = 0` (with the saturating
addition `apply_block` uses) keeps `total_issued ≤ PUBLIC_ISSUANCE` after
every block. -/
theorem supply_cap :
    (∀ h issued, 1 ≤ h → issued ≤ PUBLIC_ISSUANCE →
      calculate_block_reward h issued ≤ PUBLIC_ISSUANCE - issued) ∧
    (∀ n, issuedAfter n ≤ PUBLIC_ISSUANCE) := by
  constructor
  · intro h issued _ _
    exact calculate_block_reward_le_remaining h issued
  · exact issuedAfter_le

theorem supply_cap_witness :
    (1 ≤ 1 ∧ 0 ≤ PUBLIC_ISSUANCE ∧
      calculate_block_reward 1 0 ≤ PUBLIC_ISSUANCE - 0) ∧
    issuedAfter 3 ≤ PUBLIC_ISSUANCE :=
  ⟨⟨le_refl 1, Nat.zero_le _, supply_cap.1 1 0 (le_refl 1) (Nat.zero_le _)⟩,
    supply_cap.2 3⟩

/-- Claim C8 (code bug): the first block reward `calculate_block_reward 1 0`
is positive, but it equals `450_000_000_000` base units (4500 RH), exceeding
the `50·10^8` bound stated by the spec and by the source comment
`INITIAL_REWARD_NUMERATOR: 50 RH per block initially`. -/
theorem first_block_reward_value :
    0 < calculate_block_reward 1 0 ∧
    calculate_block_reward 1 0 = 450000000000 ∧
    ¬ calculate_block_reward 1 0 ≤ 50 * 100000000 := by
  refine ⟨?_, ?_, ?_⟩ <;> decide

theorem Hash.bytes_inj {a b : Hash} (h : a.bytes = b.bytes) : a = b := by
  cases a; cases b; simpa using h

theorem hash_pair_len (a b : Hash) :
    (hash_pair a b).bytes.length = 1 + (a.bytes.length + b.bytes.length) := by
  simp [hash_pair, hash_bytes]
  omega

theorem hash_pair_inj {a b c d : Hash} (hlen : a.bytes.length = c.bytes.length) :
    hash_pair a b = hash_pair c d ↔ a = c ∧ b = d := by
  constructor
  · intro h
    have hb : a.bytes ++ b.bytes = c.bytes ++ d.bytes := by
      have := congrArg Hash.bytes h
      simpa [hash_pair, hash_bytes] using this
    have := List.append_inj hb hlen
    exact ⟨Hash.bytes_inj this.1, Hash.bytes_inj this.2⟩
  · rintro ⟨rfl, rfl⟩
    rfl

theorem getLastD_mem (l : List Hash) (d : Hash) (hne : l ≠ []) : l.getLastD d ∈ l := by
  rw [List.getLastD_eq_getLast?, List.getLast?_eq_getLast l hne, Option.getD_some]
  exact List.getLast_mem hne

theorem padLevel_length (L : List Hash) :
    (padLevel L).length = L.length + L.length % 2 := by
  simp only [padLevel]
  split <;> simp <;> omega

theorem mem_padLevel {x : Hash} {L : List Hash} (h : x ∈ padLevel L) : x ∈ L := by
  simp only [padLevel] at h
  split at h
  · rcases List.mem_append.mp h with h1 | h1
    · exact h1
    · have hne : L ≠ [] := by
        rintro rfl
        simp_all
      simp only [List.mem_singleton] at h1
      subst h1
      exact getLastD_mem L Hash.zero hne
  · exact h

theorem uniformLen_padLevel {L : List Hash} {n : Nat} (h : uniformLen L n) :
    uniformLen (padLevel L) n :=
  fun x hx => h x (mem_padLevel hx)

theorem mem_pairUp : ∀ {x : Hash} {l : List Hash}, x ∈ pairUp l →
    ∃ a ∈ l, ∃ b ∈ l, x = hash_pair a b := by
  intro x l
  induction l using pairUp.induct with
  | case1 a b rest ih =>
    intro hx
    simp only [pairUp, List.mem_cons] at hx
    rcases hx with rfl | hx
    · exact ⟨a, by simp, b, by simp, rfl⟩
    · obtain ⟨a2, ha2, b2, hb2, rfl⟩ := ih hx
      exact ⟨a2, by simp [ha2], b2, by simp [hb2], rfl⟩
  | case2 l hl =>
    intro hx
    have : pairUp l = [] := by
      cases l with
      | nil => rfl
      | cons a t =>
        cases t with
        | nil => rfl
        | cons b r => exact absurd rfl (hl a b r)
    simp [this] at hx

theorem uniformLen_pairUp {l : List Hash} {n : Nat} (h : uniformLen l n) :
    uniformLen (pairUp l) (1 + (n + n)) := by
  intro x hx
  obtain ⟨a, ha, b, hb, rfl⟩ := mem_pairUp hx
  rw [hash_pair_len, h a ha, h b hb]

theorem pairUp_getD : ∀ (l : List Hash) (j : Nat) (d : Hash),
    2 * j + 1 < l.length →
    (pairUp l).getD j d = hash_pair (l.getD (2 * j) d) (l.getD (2 * j + 1) d)
  | a :: b :: rest, 0, d, _ => by simp [pairUp]
  | a :: b :: rest, j + 1, d, hj => by
    have hrec := pairUp_getD rest j d (by simp at hj; omega)
    have h1 : 2 * (j + 1) = 2 * j + 1 + 1 := by omega
    have h2 : 2 * (j + 1) + 1 = 2 * j + 1 + 1 + 1 := by omega
    simp only [pairUp, h1, h2, List.getD_cons_succ]
    exact hrec
  | [], j, d, hj => by simp at hj
  | [a], j, d, hj => by simp at hj

theorem getD_length_of_uniform {L : List Hash} {n : Nat} (hU : uniformLen L n)
    {i : Nat} (hi : i < L.length) : (L.getD i Hash.zero).bytes.length = n := by
  rw [List.getD_eq_getElem L Hash.zero hi]
  exact hU _ (List.getElem_mem hi)

theorem padLevel_getD (L : List Hash) (i : Nat) (d : Hash) (hi : i < L.length) :
    (padLevel L).getD i d = L.getD i d := by
  simp only [padLevel]
  split
  · exact List.getD_append _ _ _ _ hi
  · rfl

theorem verifyFold_proofLoop_iff (n : Nat) : ∀ (L : List Hash) (i : Nat) (h : Hash)
    (m : Nat), L.length = n → uniformLen L m → h.bytes.length = m → i < L.length →
    (verifyFold h (proofLoop L i) = rootLoop L ↔ h = L.getD i Hash.zero) := by
  induction n using Nat.strong_induction_on with
  | _ n ih =>
    intro L i h m hLn hU hh hi
    by_cases hle : L.length ≤ 1
    · have h1 : L.length = 1 := by omega
      obtain ⟨x, rfl⟩ : ∃ x, L = [x] := by
        cases L with
        | nil => simp at h1
        | cons a t =>
          cases t with
          | nil => exact ⟨a, rfl⟩
          | cons b r => simp at h1
      have hi0 : i = 0 := by simpa using hi
      subst hi0
      rw [proofLoop, rootLoop]
      simp [verifyFold]
    · have hL'len : (padLevel L).length = L.length + L.length % 2 := padLevel_length L
      have hL'ev : (padLevel L).length % 2 = 0 := by omega
      have hU' : uniformLen (padLevel L) m := uniformLen_padLevel hU
      have hU2 : uniformLen (pairUp (padLevel L)) (1 + (m + m)) := uniformLen_pairUp hU'
      have hL2len : (pairUp (padLevel L)).length = (padLevel L).length / 2 :=
        pairUpLength _
      have hiL' : i < (padLevel L).length := by omega
      have hlt : (pairUp (padLevel L)).length < n := by omega
      have hi2 : i / 2 < (pairUp (padLevel L)).length := by omega
      have hroot : rootLoop L = rootLoop (pairUp (padLevel L)) := by
        rw [rootLoop]
        rw [dif_neg hle]
      rcases Nat.mod_two_eq_zero_or_one i with hpar | hpar
      · have hsib : i + 1 < (padLevel L).length := by omega
        have hstep : (hash_pair h ((padLevel L).getD (i + 1) Hash.zero)).bytes.length =
            1 + (m + m) := by
          rw [hash_pair_len, hh, getD_length_of_uniform hU' hsib]
        have hIH := ih _ hlt (pairUp (padLevel L)) (i / 2)
          (hash_pair h ((padLevel L).getD (i + 1) Hash.zero)) (1 + (m + m))
          rfl hU2 hstep hi2
        have hfold : verifyFold h (proofLoop L i) =
            verifyFold (hash_pair h ((padLevel L).getD (i + 1) Hash.zero))
              (proofLoop (pairUp (padLevel L)) (i / 2)) := by
          rw [proofLoop, dif_neg hle]
          simp [verifyFold, hpar]
        have hdiv : 2 * (i / 2) = i := by omega
        have hgd : (pairUp (padLevel L)).getD (i / 2) Hash.zero =
            hash_pair ((padLevel L).getD i Hash.zero)
              ((padLevel L).getD (i + 1) Hash.zero) := by
          rw [pairUp_getD _ _ _ (by omega)]
          rw [hdiv]
        rw [hfold, hroot, hIH, hgd,
          hash_pair_inj (by rw [hh, getD_length_of_uniform hU' hiL']),
          padLevel_getD _ _ _ hi]
        constructor
        · exact fun hx => hx.1
        · exact fun hx => ⟨hx, rfl⟩
      · have hsib : i - 1 < (padLevel L).length := by omega
        have hstep : (hash_pair ((padLevel L).getD (i - 1) Hash.zero) h).bytes.length =
            1 + (m + m) := by
          rw [hash_pair_len, hh, getD_length_of_uniform hU' hsib]
        have hIH := ih _ hlt (pairUp (padLevel L)) (i / 2)
          (hash_pair ((padLevel L).getD (i - 1) Hash.zero) h) (1 + (m + m))
          rfl hU2 hstep hi2
        have hfold : verifyFold h (proofLoop L i) =
            verifyFold (hash_pair ((padLevel L).getD (i - 1) Hash.zero) h)
              (proofLoop (pairUp (padLevel L)) (i / 2)) := by
          rw [proofLoop, dif_neg hle]
          simp [verifyFold, hpar]
        have hd2 : 2 * (i / 2) + 1 = i := by omega
        have hd1 : 2 * (i / 2) = i - 1 := by omega
        have hgd : (pairUp (padLevel L)).getD (i / 2) Hash.zero =
            hash_pair ((padLevel L).getD (i - 1) Hash.zero)
              ((padLevel L).getD i Hash.zero) := by
          rw [pairUp_getD _ _ _ (by omega)]
          rw [hd2, hd1]
        rw [hfold, hroot, hIH, hgd, hash_pair_inj rfl, padLevel_getD _ _ _ hi]
        constructor
        · exact fun hx => hx.2
        · exact fun hx => ⟨rfl, hx⟩

theorem compute_merkle_root_eq_rootLoop {leaves : List Hash} (hne : leaves ≠ []) :
    compute_merkle_root leaves = rootLoop leaves := by
  simp only [compute_merkle_root]
  rw [if_neg (by simpa using hne)]
  by_cases h1 : leaves.length = 1
  · rw [if_pos h1, rootLoop, dif_pos (by omega)]
  · rw [if_neg h1]

theorem build_merkle_proof_eq {leaves : List Hash} {i : Nat} (hne : leaves ≠ [])
    (hi : i < leaves.length) :
    build_merkle_proof leaves i = some ⟨i, proofLoop leaves i⟩ := by
  simp only [build_merkle_proof]
  rw [if_neg (by simp [hne]; omega)]
  by_cases h1 : leaves.length = 1
  · rw [if_pos h1, proofLoop, dif_pos (by omega)]
  · rw [if_neg h1]

theorem merkle_verify_eq {p : MerkleProof} {x root : Hash} :
    p.verify x root = true ↔ verifyFold x p.siblings = root := by
  simp [MerkleProof.verify]

/-- Claim C9: for every non-empty list of leaves (each a 32-byte hash, as the
source type guarantees) and every index `i < leaves.length`,
`build_merkle_proof leaves i` returns a proof, that proof verifies `leaves[i]`
against `compute_merkle_root leaves`; and a hash `h` verifies against the root
through some proof built against it exactly when `h` is in the leaf set. -/
theorem merkle_proof_roundtrip (leaves : List Hash) (i m : Nat)
    (hne : leaves ≠ []) (hi : i < leaves.length) (hlen : uniformLen leaves m) :
    (∃ p : MerkleProof, build_merkle_proof leaves i = some p ∧
        p.verify (leaves.getD i Hash.zero) (compute_merkle_root leaves) = true) ∧
    (∀ h : Hash, h.bytes.length = m →
      ((∃ j, j < leaves.length ∧ ∃ p : MerkleProof,
          build_merkle_proof leaves j = some p ∧
          p.verify h (compute_merkle_root leaves) = true) ↔ h ∈ leaves)) := by
  constructor
  · refine ⟨⟨i, proofLoop leaves i⟩, build_merkle_proof_eq hne hi, ?_⟩
    rw [merkle_verify_eq, compute_merkle_root_eq_rootLoop hne]
    exact (verifyFold_proofLoop_iff leaves.length leaves i (leaves.getD i Hash.zero) m
      rfl hlen (getD_length_of_uniform hlen hi) hi).mpr rfl
  · intro h hh
    constructor
    · rintro ⟨j, hj, p, hp, hv⟩
      rw [build_merkle_proof_eq hne hj] at hp
      cases hp
      rw [merkle_verify_eq, compute_merkle_root_eq_rootLoop hne] at hv
      have := (verifyFold_proofLoop_iff leaves.length leaves j h m
        rfl hlen hh hj).mp hv
      rw [this, List.getD_eq_getElem leaves Hash.zero hj]
      exact List.getElem_mem hj
    · intro hmem
      obtain ⟨j, hj, hjh⟩ := List.getElem_of_mem hmem
      refine ⟨j, hj, ⟨j, proofLoop leaves j⟩, build_merkle_proof_eq hne hj, ?_⟩
      rw [merkle_verify_eq, compute_merkle_root_eq_rootLoop hne]
      refine (verifyFold_proofLoop_iff leaves.length leaves j h m
        rfl hlen hh hj).mpr ?_
      rw [List.getD_eq_getElem leaves Hash.zero hj, hjh]

theorem merkle_proof_roundtrip_witness :
    ([Hash.mk (List.replicate 32 1), Hash.mk (List.replicate 32 2),
      Hash.mk (List.replicate 32 3)] ≠ ([] : List Hash)) ∧
    1 < ([Hash.mk (List.replicate 32 1), Hash.mk (List.replicate 32 2),
      Hash.mk (List.replicate 32 3)] : List Hash).length ∧
    uniformLen [Hash.mk (List.replicate 32 1), Hash.mk (List.replicate 32 2),
      Hash.mk (List.replicate 32 3)] 32 ∧
    (∃ p : MerkleProof,
      build_merkle_proof [Hash.mk (List.replicate 32 1), Hash.mk (List.replicate 32 2),
        Hash.mk (List.replicate 32 3)] 1 = some p ∧
      p.verify ([Hash.mk (List.replicate 32 1), Hash.mk (List.replicate 32 2),
          Hash.mk (List.replicate 32 3)].getD 1 Hash.zero)
        (compute_merkle_root [Hash.mk (List.replicate 32 1),
          Hash.mk (List.replicate 32 2), Hash.mk (List.replicate 32 3)]) = true) ∧
    ((∃ j, j < ([Hash.mk (List.replicate 32 1), Hash.mk (List.replicate 32 2),
        Hash.mk (List.replicate 32 3)] : List Hash).length ∧
      ∃ p : MerkleProof,
        build_merkle_proof [Hash.mk (List.replicate 32 1), Hash.mk (List.replicate 32 2),
          Hash.mk (List.replicate 32 3)] j = some p ∧
        p.verify (Hash.mk (List.replicate 32 2))
          (compute_merkle_root [Hash.mk (List.replicate 32 1),
            Hash.mk (List.replicate 32 2), Hash.mk (List.replicate 32 3)]) = true) ↔
      Hash.mk (List.replicate 32 2) ∈ [Hash.mk (List.replicate 32 1),
        Hash.mk (List.replicate 32 2), Hash.mk (List.replicate 32 3)]) := by
  have hu : uniformLen [Hash.mk (List.replicate 32 1), Hash.mk (List.replicate 32 2),
      Hash.mk (List.replicate 32 3)] 32 := by
    intro x hx
    simp only [List.mem_cons, List.not_mem_nil, or_false] at hx
    rcases hx with rfl | rfl | rfl <;> simp
  have hmain := merkle_proof_roundtrip
    [Hash.mk (List.replicate 32 1), Hash.mk (List.replicate 32 2),
      Hash.mk (List.replicate 32 3)] 1 32 (by decide) (by decide) hu
  exact ⟨by decide, by decide, hu, hmain.1, hmain.2 (Hash.mk (List.replicate 32 2))
    (by simp)⟩

/-- Claim C4 counterexample: on the genesis state (height 0, tip present in the
index), a block whose `prev_hash` differs from the tip hash is accepted by
`apply_block` (the check is guarded by `self.height > 0`), moving the state to
height 1. -/
theorem apply_block_prev_mismatch_counterexample :
    demoRogue.header.prev_hash ≠ demoState.tip_hash ∧
    demoState.height = 0 ∧
    (ChainState.apply_block sigAlwaysOk 900 demoState demoRogue).1.isOk = true ∧
    (ChainState.apply_block sigAlwaysOk 900 demoState demoRogue).2.height = 1 := by
  refine ⟨?_, ?_, ?_, ?_⟩ <;> decide

/-- Claim C4 (amended): from any state of height at least 1, a block whose
`prev_hash` differs from `tip_hash` is rejected by `apply_block`, and the
state is returned unchanged.  At height 0 the check is skipped (see the
counterexample). -/
theorem apply_block_prev_mismatch_errors (sigOk : SigVerifier) (now : Nat)
    (s : ChainState) (block : Block) (h1 : 1 ≤ s.height)
    (h2 : block.header.prev_hash ≠ s.tip_hash) :
    (ChainState.apply_block sigOk now s block).1.isOk = false ∧
    (ChainState.apply_block sigOk now s block).2 = s := by
  unfold ChainState.apply_block
  split
  · exact ⟨rfl, rfl⟩
  · split
    · exact ⟨rfl, rfl⟩
    · rw [if_pos ⟨h2, by omega⟩]
      exact ⟨rfl, rfl⟩

theorem apply_block_prev_mismatch_errors_witness :
    1 ≤ demoState1.height ∧
    demoRogue.header.prev_hash ≠ demoState1.tip_hash ∧
    (ChainState.apply_block sigAlwaysOk 1000 demoState1 demoRogue).1.isOk = false ∧
    (ChainState.apply_block sigAlwaysOk 1000 demoState1 demoRogue).2 = demoState1 :=
  ⟨by decide, by decide,
    (apply_block_prev_mismatch_errors sigAlwaysOk 1000 demoState1 demoRogue
      (by decide) (by decide)).1,
    (apply_block_prev_mismatch_errors sigAlwaysOk 1000 demoState1 demoRogue
      (by decide) (by decide)).2⟩

/-- Claim C10: `revert_tip` on a fresh genesis state (whose tip block and index
entry exist, so no error branch fires) succeeds and wraps the unsigned height
decrement `height - 1` around to `2^64 - 1`: the error branches alone do not
make `revert_tip` safe at height 0. -/
theorem revert_tip_at_genesis_underflows (g : Block) :
    (ChainState.revert_tip (ChainState.new g)).1.isOk = true ∧
    (ChainState.revert_tip (ChainState.new g)).2.height = U64 - 1 := by
  constructor
  · simp [ChainState.revert_tip, ChainState.new, Block.hash, Except.isOk, Except.toBool]
  · simp [ChainState.revert_tip, ChainState.new, ChainState.revert_block, Block.hash]

theorem reorganize_eq_of_traceback {s : ChainState} {fuel : Nat} {target curr : Hash}
    {path : List Hash} {common : Nat} (sigOk : SigVerifier) (now : Nat)
    (htb : tracebackLoop s fuel target [] = some (path, curr))
    (hch : s.get_block_height curr = some common) :
    ChainState.reorganize sigOk now fuel s target =
      (match s.validate_reorg_depth common with
       | .error e => (.error e, s)
       | .ok _ =>
         match revertLoop common fuel s with
         | (.error e, s2) => (.error e, s2)
         | (.ok _, s2) => applyChainHashes sigOk now path s2) := by
  unfold ChainState.reorganize
  rw [htb]
  simp only [hch]

/-- Claim C7 counterexample: in `demoStateIdx` the target `demoSide` sits at
the checkpointed height 0 with a hash different from the genesis checkpoint
hash, yet `reorganize` succeeds: the checkpoint-hash condition of the claim is
not enforced anywhere in `validate_reorg_depth` or `reorganize`. -/
theorem reorganize_checkpoint_hash_counterexample :
    ChainState.get_block_height demoStateIdx demoSide.hash = some 0 ∧
    (∃ cp ∈ CHECKPOINTS, cp.1 = 0 ∧ cp.2 ≠ demoSide.hash) ∧
    (ChainState.reorganize sigAlwaysOk 900 5 demoStateIdx demoSide.hash).1.isOk
      = true := by
  refine ⟨?_, ?_, ?_⟩ <;> decide

/-- Claim C7 (amended): `reorganize` returns an error and performs no revert
or apply when either of the two limits that the code does enforce fails: the
reorg depth bound `MAX_REORG_DEPTH`, or the common ancestor being at or above
every checkpoint height.  (The third condition of the claim, equality with the
checkpoint hash at a checkpointed target height, is not enforced; see the
counterexample.) -/
theorem reorganize_limit_violation_errors (sigOk : SigVerifier) (now fuel : Nat)
    (s : ChainState) (target curr : Hash) (path : List Hash) (common : Nat)
    (htb : tracebackLoop s fuel target [] = some (path, curr))
    (hch : s.get_block_height curr = some common)
    (hviol : (s.height + (U64 - common % U64)) % U64 > MAX_REORG_DEPTH ∨
      CHECKPOINTS.any (fun cp => common < cp.1) = true) :
    (ChainState.reorganize sigOk now fuel s target).1.isOk = false ∧
    (ChainState.reorganize sigOk now fuel s target).2 = s := by
  rw [reorganize_eq_of_traceback sigOk now htb hch]
  simp only [ChainState.validate_reorg_depth]
  by_cases hd : (s.height + (U64 - common % U64)) % U64 > MAX_REORG_DEPTH
  · rw [if_pos hd]
    exact ⟨rfl, rfl⟩
  · have hcp : CHECKPOINTS.any (fun cp => common < cp.1) = true := by tauto
    rw [if_neg hd, if_pos hcp]
    exact ⟨rfl, rfl⟩

theorem reorganize_limit_violation_errors_witness :
    tracebackLoop demoDeep 5 demoSide.hash [] =
      some ([demoSide.hash], demoSide.hash) ∧
    demoDeep.get_block_height demoSide.hash = some 0 ∧
    (demoDeep.height + (U64 - 0 % U64)) % U64 > MAX_REORG_DEPTH ∧
    (ChainState.reorganize sigAlwaysOk 900 5 demoDeep demoSide.hash).1.isOk
      = false ∧
    (ChainState.reorganize sigAlwaysOk 900 5 demoDeep demoSide.hash).2
      = demoDeep :=
  ⟨by decide, by decide, by decide,
    (reorganize_limit_violation_errors sigAlwaysOk 900 5 demoDeep demoSide.hash
      demoSide.hash [demoSide.hash] 0 (by decide) (by decide)
      (Or.inl (by decide))).1,
    (reorganize_limit_violation_errors sigAlwaysOk 900 5 demoDeep demoSide.hash
      demoSide.hash [demoSide.hash] 0 (by decide) (by decide)
      (Or.inl (by decide))).2⟩

/-- Claim C6 counterexample: with valid signatures, an existing referenced
UTXO, and a UTXO pubkey hash that matches `hash_bytes(public_key)` on bytes
0..20 but differs in the tail, `verify_signatures` returns `false`: the source
compares the full 32-byte hashes (`pubkey_hash != utxo.pubkey_hash`), not the
first 20 bytes. -/
theorem pubkey_prefix_match_rejected_counterexample :
    demoTx6.is_coinbase = false ∧
    demoUtxos6.get demoPrevHash 0 = some ⟨100, demoMismatchPh, 1⟩ ∧
    (hash_bytes demoPk.bytes).bytes.take 20 = demoMismatchPh.bytes.take 20 ∧
    hash_bytes demoPk.bytes ≠ demoMismatchPh ∧
    (∀ i ∈ demoTx6.inputs,
      sigAlwaysOk i.public_key demoTx6.signing_hash i.signature = true) ∧
    demoTx6.verify_signatures sigAlwaysOk demoUtxos6 = false := by
  refine ⟨?_, ?_, ?_, ?_, ?_, ?_⟩ <;> decide

/-- Claim C6 (amended): input ownership validation in `verify_signatures`
requires the full 32-byte equality `hash_bytes(public_key) = utxo.pubkey_hash`
for every input of a non-coinbase transaction; only the owner lookup
`get_by_pubkey_hash` compares just the first 20 bytes. -/
theorem verify_signatures_full_hash (tx : Transaction) (sigOk : SigVerifier)
    (uset : UTXOSet) (hcb : tx.is_coinbase = false)
    (hv : tx.verify_signatures sigOk uset = true) :
    (∀ input ∈ tx.inputs, ∃ utxo,
      uset.get input.prev_tx_hash input.output_index = some utxo ∧
      hash_bytes input.public_key.bytes = utxo.pubkey_hash) ∧
    (∀ (s : UTXOSet) (ph : Hash) (p : UTXOKey × UTXO),
      p ∈ s.get_by_pubkey_hash ph ↔
        p ∈ s.utxos ∧ p.2.pubkey_hash.bytes.take 20 = ph.bytes.take 20) := by
  constructor
  · intro input hin
    unfold Transaction.verify_signatures at hv
    rw [hcb] at hv
    simp only [Bool.false_eq_true, if_false, List.all_eq_true] at hv
    have hone := hv input hin
    rw [Bool.and_eq_true] at hone
    cases hget : uset.get input.prev_tx_hash input.output_index with
    | none =>
      rw [hget] at hone
      simp at hone
    | some utxo =>
      rw [hget] at hone
      refine ⟨utxo, rfl, ?_⟩
      have := hone.2
      rwa [beq_iff_eq] at this
  · intro s ph p
    simp [UTXOSet.get_by_pubkey_hash, List.mem_filter]

theorem verify_signatures_full_hash_witness :
    demoTx6.is_coinbase = false ∧
    demoTx6.verify_signatures sigAlwaysOk demoUtxos6ok = true ∧
    (∃ utxo, demoUtxos6ok.get demoPrevHash 0 = some utxo ∧
      hash_bytes demoPk.bytes = utxo.pubkey_hash) ∧
    ((((demoPrevHash, 0), ⟨100, hash_bytes demoPk.bytes, 1⟩) : UTXOKey × UTXO) ∈
        demoUtxos6ok.get_by_pubkey_hash (hash_bytes demoPk.bytes) ↔
      (((demoPrevHash, 0), ⟨100, hash_bytes demoPk.bytes, 1⟩) : UTXOKey × UTXO) ∈
          demoUtxos6ok.utxos ∧
        (⟨100, hash_bytes demoPk.bytes, 1⟩ : UTXO).pubkey_hash.bytes.take 20 =
          (hash_bytes demoPk.bytes).bytes.take 20) :=
  ⟨by decide, by decide,
    (verify_signatures_full_hash demoTx6 sigAlwaysOk demoUtxos6ok (by decide)
      (by decide)).1 ⟨demoPrevHash, 0, ⟨List.replicate 64 0⟩, demoPk⟩ (by decide),
    (verify_signatures_full_hash demoTx6 sigAlwaysOk demoUtxos6ok (by decide)
      (by decide)).2 demoUtxos6ok (hash_bytes demoPk.bytes)
      ((demoPrevHash, 0), ⟨100, hash_bytes demoPk.bytes, 1⟩)⟩

theorem mempoolNonceStep_ok_cases {s : ChainState} {tx : Transaction} {fr : Nat}
    {m1 : List (Hash × Transaction)} (h : mempoolNonceStep s tx fr = .ok m1) :
    m1 = s.mempool ∨ ∃ hh, m1 = mempoolRemoveKey s.mempool hh := by
  unfold mempoolNonceStep at h
  split at h
  · cases h
    exact Or.inl rfl
  · dsimp only at h
    split at h
    · split at h
      · split at h
        · cases h
        · cases h
          exact Or.inr ⟨_, rfl⟩
      · cases h
        exact Or.inl rfl
    · split at h
      · cases h
      · split at h
        · cases h
        · cases h
          exact Or.inl rfl

/-- Claim C5 counterexample: with `demoTxA` (nonce 0 from A) and `demoTxB` in
the pool, admitting the better-paying replacement `demoTxA2` first removes
`demoTxA`, then fails the mempool double-spend check against `demoTxB`; the
call returns an error but `demoTxA` is gone from the pool. -/
theorem add_to_mempool_nonatomic_counterexample :
    (ChainState.add_to_mempool sigAlwaysOk demoMempState2 demoTxA2).1.isOk
      = false ∧
    mempoolLookup demoMempState2.mempool demoTxA.hash = some demoTxA ∧
    mempoolLookup
      (ChainState.add_to_mempool sigAlwaysOk demoMempState2 demoTxA2).2.mempool
      demoTxA.hash = none := by
  refine ⟨?_, ?_, ?_⟩ <;> decide

theorem mempoolAddFinish_cases (s : ChainState) (tx : Transaction)
    (m1 : List (Hash × Transaction)) :
    (mempoolAddFinish s tx m1).1.isOk = true ∨
    ∃ m, (mempoolAddFinish s tx m1).2 = { s with mempool := m } ∧
      (m = m1 ∨ ∃ hh, m = mempoolRemoveKey m1 hh) := by
  unfold mempoolAddFinish
  dsimp only
  split
  · exact Or.inr ⟨m1, rfl, Or.inl rfl⟩
  · split
    · split
      · split
        · exact Or.inr ⟨_, rfl, Or.inr ⟨_, rfl⟩⟩
        · exact Or.inl rfl
      · exact Or.inr ⟨m1, rfl, Or.inl rfl⟩
    · exact Or.inl rfl

theorem add_to_mempool_result_cases (sigOk : SigVerifier) (s : ChainState)
    (tx : Transaction) :
    (ChainState.add_to_mempool sigOk s tx).1.isOk = true ∨
    ∃ m, (ChainState.add_to_mempool sigOk s tx).2 = { s with mempool := m } ∧
      (m = s.mempool ∨ (∃ h1, m = mempoolRemoveKey s.mempool h1) ∨
        (∃ h1 h2, m = mempoolRemoveKey (mempoolRemoveKey s.mempool h1) h2)) := by
  unfold ChainState.add_to_mempool
  split
  · exact Or.inr ⟨s.mempool, rfl, Or.inl rfl⟩
  · split
    · exact Or.inr ⟨s.mempool, rfl, Or.inl rfl⟩
    · split
      · exact Or.inr ⟨s.mempool, rfl, Or.inl rfl⟩
      · split
        · exact Or.inr ⟨s.mempool, rfl, Or.inl rfl⟩
        · split
          · exact Or.inr ⟨s.mempool, rfl, Or.inl rfl⟩
          · split
            · exact Or.inr ⟨s.mempool, rfl, Or.inl rfl⟩
            · next m1 hstep =>
              have hm1 := mempoolNonceStep_ok_cases hstep
              rcases mempoolAddFinish_cases s tx m1 with hok | ⟨m, hst, hm⟩
              · exact Or.inl hok
              · refine Or.inr ⟨m, hst, ?_⟩
                rcases hm with rfl | ⟨hh, rfl⟩
                · rcases hm1 with hm1 | ⟨h1, hm1⟩
                  · exact Or.inl hm1
                  · exact Or.inr (Or.inl ⟨h1, hm1⟩)
                · rcases hm1 with hm1 | ⟨h1, hm1⟩
                  · exact Or.inr (Or.inl ⟨hh, by rw [hm1]⟩)
                  · exact Or.inr (Or.inr ⟨h1, hh, by rw [hm1]⟩)

/-- Claim C5 (amended): when `add_to_mempool` returns an error, every chain
state field except the mempool is unchanged (in particular `next_nonce`), and
the mempool is either unchanged or the original minus one or two entries: one
transaction removed by the nonce-replacement step before the double-spend
check fails, and/or one evicted by the capacity step before the capacity
re-check fails. -/
theorem add_to_mempool_error_effect (sigOk : SigVerifier) (s : ChainState)
    (tx : Transaction)
    (herr : (ChainState.add_to_mempool sigOk s tx).1.isOk = false) :
    (ChainState.add_to_mempool sigOk s tx).2.utxo_set = s.utxo_set ∧
    (ChainState.add_to_mempool sigOk s tx).2.height = s.height ∧
    (ChainState.add_to_mempool sigOk s tx).2.tip_hash = s.tip_hash ∧
    (ChainState.add_to_mempool sigOk s tx).2.total_issued = s.total_issued ∧
    (ChainState.add_to_mempool sigOk s tx).2.difficulty = s.difficulty ∧
    (ChainState.add_to_mempool sigOk s tx).2.block_index = s.block_index ∧
    (ChainState.add_to_mempool sigOk s tx).2.full_blocks = s.full_blocks ∧
    (ChainState.add_to_mempool sigOk s tx).2.height_to_hash = s.height_to_hash ∧
    (ChainState.add_to_mempool sigOk s tx).2.next_nonce = s.next_nonce ∧
    (ChainState.add_to_mempool sigOk s tx).2.recent_block_timestamps
      = s.recent_block_timestamps ∧
    ((ChainState.add_to_mempool sigOk s tx).2.mempool = s.mempool ∨
      (∃ h1, (ChainState.add_to_mempool sigOk s tx).2.mempool
        = mempoolRemoveKey s.mempool h1) ∨
      (∃ h1 h2, (ChainState.add_to_mempool sigOk s tx).2.mempool
        = mempoolRemoveKey (mempoolRemoveKey s.mempool h1) h2)) := by
  rcases add_to_mempool_result_cases sigOk s tx with hok | ⟨m, hst, hm⟩
  · rw [hok] at herr
    cases herr
  · rw [hst]
    exact ⟨rfl, rfl, rfl, rfl, rfl, rfl, rfl, rfl, rfl, rfl, hm⟩

theorem add_to_mempool_error_effect_witness :
    (ChainState.add_to_mempool sigAlwaysOk demoMempState2 demoTxA2).1.isOk
      = false ∧
    (ChainState.add_to_mempool sigAlwaysOk demoMempState2 demoTxA2).2.next_nonce
      = demoMempState2.next_nonce ∧
    ((ChainState.add_to_mempool sigAlwaysOk demoMempState2 demoTxA2).2.mempool
        = demoMempState2.mempool ∨
      (∃ h1, (ChainState.add_to_mempool sigAlwaysOk demoMempState2 demoTxA2).2.mempool
        = mempoolRemoveKey demoMempState2.mempool h1) ∨
      (∃ h1 h2,
        (ChainState.add_to_mempool sigAlwaysOk demoMempState2 demoTxA2).2.mempool
          = mempoolRemoveKey (mempoolRemoveKey demoMempState2.mempool h1) h2)) := by
  have hmain := add_to_mempool_error_effect sigAlwaysOk demoMempState2 demoTxA2
    (by decide)
  exact ⟨by decide, hmain.2.2.2.2.2.2.2.2.1, hmain.2.2.2.2.2.2.2.2.2.2⟩

theorem find?_filter_ne_key (t : List (UTXOKey × UTXO)) (k1 k2 : UTXOKey)
    (hk : k2 ≠ k1) :
    (t.filter (fun p => !(p.1 == k1))).find? (fun p => p.1 == k2) =
      t.find? (fun p => p.1 == k2) := by
  induction t with
  | nil => rfl
  | cons a t ih =>
    rw [List.filter_cons]
    by_cases ha : a.1 = k1
    · rw [if_neg (by simp [ha]), ih,
        List.find?_cons_of_neg _ (by simp [ha]; exact fun h => hk h.symm)]
    · rw [if_pos (by simp [ha])]
      by_cases hhit : a.1 = k2
      · rw [List.find?_cons_of_pos _ (by simp [hhit]),
          List.find?_cons_of_pos _ (by simp [hhit])]
      · rw [List.find?_cons_of_neg _ (by simp [hhit]),
          List.find?_cons_of_neg _ (by simp [hhit])]
        exact ih

theorem find?_filter_self_key (t : List (UTXOKey × UTXO)) (k1 : UTXOKey) :
    (t.filter (fun p => !(p.1 == k1))).find? (fun p => p.1 == k1) = none := by
  rw [List.find?_eq_none]
  intro p hp
  rw [List.mem_filter] at hp
  have := hp.2
  simp only [Bool.not_eq_eq_eq_not, Bool.not_true, beq_eq_false_iff_ne] at this
  simp [this]

theorem UTXOSet.get_add (s : UTXOSet) (h1 : Hash) (i1 : Nat) (u : UTXO)
    (h2 : Hash) (i2 : Nat) :
    (s.add h1 i1 u).get h2 i2 =
      if (h2, i2) = (h1, i1) then some u else s.get h2 i2 := by
  unfold UTXOSet.get UTXOSet.add
  rw [List.find?_append]
  by_cases hk : (h2, i2) = (h1, i1)
  · rw [if_pos hk, hk, find?_filter_self_key]
    simp
  · rw [if_neg hk, find?_filter_ne_key _ _ _ hk]
    have hsingle : (([((h1, i1), u)] : List (UTXOKey × UTXO))).find?
        (fun p => p.1 == (h2, i2)) = none := by
      rw [List.find?_cons_of_neg _
        (by simp only [beq_iff_eq]; exact fun h => hk h.symm)]
      rfl
    rw [hsingle, Option.or_none]

theorem UTXOSet.get_remove (s : UTXOSet) (h1 : Hash) (i1 : Nat)
    (h2 : Hash) (i2 : Nat) :
    (s.remove h1 i1).get h2 i2 =
      if (h2, i2) = (h1, i1) then none else s.get h2 i2 := by
  unfold UTXOSet.get UTXOSet.remove
  by_cases hk : (h2, i2) = (h1, i1)
  · rw [if_pos hk, hk, find?_filter_self_key]
    rfl
  · rw [if_neg hk, find?_filter_ne_key _ _ _ hk]

theorem get_foldl_remove_inputs (l : List TxInput) (s : UTXOSet) (kh : Hash)
    (ki : Nat) :
    (l.foldl (fun acc i => acc.remove i.prev_tx_hash i.output_index) s).get kh ki =
      if (kh, ki) ∈ l.map (fun i => (i.prev_tx_hash, i.output_index)) then none
      else s.get kh ki := by
  induction l generalizing s with
  | nil => simp
  | cons a t ih =>
    simp only [List.foldl_cons, List.map_cons, List.mem_cons]
    rw [ih]
    by_cases hmem : (kh, ki) ∈ t.map (fun i => (i.prev_tx_hash, i.output_index))
    · simp [hmem]
    · rw [if_neg hmem, UTXOSet.get_remove]
      by_cases hhd : (kh, ki) = (a.prev_tx_hash, a.output_index)
      · simp [hhd]
      · simp [hhd, hmem]

theorem get_enumFrom_add_untouched (l : List TxOutput) (n : Nat) (h : Hash)
    (H : Nat) (s : UTXOSet) (kh : Hash) (ki : Nat)
    (hk : ¬(kh = h ∧ n ≤ ki ∧ ki < n + l.length)) :
    ((List.enumFrom n l).foldl
      (fun acc p => acc.add h p.1 ⟨p.2.amount, p.2.pubkey_hash, H⟩) s).get kh ki =
      s.get kh ki := by
  induction l generalizing n s with
  | nil => simp [List.enumFrom]
  | cons a t ih =>
    rw [List.enumFrom_cons, List.foldl_cons, ih (n + 1) _
      (by simp only [List.length_cons] at hk; intro hx; exact hk ⟨hx.1, by omega⟩),
      UTXOSet.get_add]
    rw [if_neg ?hne]
    case hne =>
      intro hx
      have h1 : kh = h := congrArg Prod.fst hx
      have h2 : ki = n := congrArg Prod.snd hx
      exact hk ⟨h1, by simp only [List.length_cons]; omega⟩

theorem get_enumFrom_remove (l : List TxOutput) (n : Nat) (h : Hash)
    (s : UTXOSet) (kh : Hash) (ki : Nat) :
    ((List.enumFrom n l).foldl (fun acc p => acc.remove h p.1) s).get kh ki =
      if kh = h ∧ n ≤ ki ∧ ki < n + l.length then none else s.get kh ki := by
  induction l generalizing n s with
  | nil =>
    simp only [List.enumFrom, List.foldl_nil, List.length_nil]
    rw [if_neg (by omega)]
  | cons a t ih =>
    rw [List.enumFrom_cons, List.foldl_cons, ih (n + 1), UTXOSet.get_remove]
    by_cases hin : kh = h ∧ n + 1 ≤ ki ∧ ki < n + 1 + t.length
    · rw [if_pos hin, if_pos (by simp only [List.length_cons]; exact ⟨hin.1, by omega⟩)]
    · rw [if_neg hin]
      by_cases hhd : (kh, ki) = (h, n)
      · have h1 : kh = h := congrArg Prod.fst hhd
        have h2 : ki = n := congrArg Prod.snd hhd
        rw [if_pos hhd, if_pos (by simp only [List.length_cons]; exact ⟨h1, by omega⟩)]
      · rw [if_neg hhd, if_neg ?hneg]
        case hneg =>
          intro hx
          simp only [List.length_cons] at hx
          rcases hx with ⟨hx1, hx2, hx3⟩
          by_cases hkin : ki = n
          · exact hhd (by rw [hx1, hkin])
          · exact hin ⟨hx1, by omega, by omega⟩

theorem get_foldl_add_pairs_untouched (l : List (UTXOKey × UTXO)) (s : UTXOSet)
    (kh : Hash) (ki : Nat) (hk : ∀ p ∈ l, p.1 ≠ (kh, ki)) :
    (l.foldl (fun acc p => acc.add p.1.1 p.1.2 p.2) s).get kh ki = s.get kh ki := by
  induction l generalizing s with
  | nil => rfl
  | cons a t ih =>
    rw [List.foldl_cons, ih _ (fun p hp => hk p (by simp [hp])), UTXOSet.get_add]
    rw [if_neg ?hne]
    case hne =>
      intro hx
      exact hk a (by simp) hx.symm

theorem get_foldl_add_pairs_preserve (l : List (UTXOKey × UTXO)) (s : UTXOSet)
    (kh : Hash) (ki : Nat) (u : UTXO)
    (hall : ∀ p ∈ l, p.1 = (kh, ki) → p.2 = u) (hs : s.get kh ki = some u) :
    (l.foldl (fun acc p => acc.add p.1.1 p.1.2 p.2) s).get kh ki = some u := by
  induction l generalizing s with
  | nil => exact hs
  | cons a t ih =>
    rw [List.foldl_cons]
    refine ih _ (fun p hp => hall p (by simp [hp])) ?_
    rw [UTXOSet.get_add]
    by_cases hhd : (kh, ki) = (a.1.1, a.1.2)
    · rw [if_pos hhd, hall a (by simp) hhd.symm]
    · rw [if_neg hhd]
      exact hs

theorem get_foldl_add_pairs_some (l : List (UTXOKey × UTXO)) (s : UTXOSet)
    (kh : Hash) (ki : Nat) (u : UTXO)
    (hall : ∀ p ∈ l, p.1 = (kh, ki) → p.2 = u) (hmem : ((kh, ki), u) ∈ l) :
    (l.foldl (fun acc p => acc.add p.1.1 p.1.2 p.2) s).get kh ki = some u := by
  induction l generalizing s with
  | nil => simp at hmem
  | cons a t ih =>
    rw [List.foldl_cons]
    rcases List.mem_cons.mp hmem with heq | htail
    · refine get_foldl_add_pairs_preserve t _ kh ki u
        (fun p hp => hall p (by simp [hp])) ?_
      rw [← heq, UTXOSet.get_add]
      simp
    · exact ih _ (fun p hp => hall p (by simp [hp])) htail

theorem apply_transaction_get_untouched (s : UTXOSet) (tx : Transaction) (H : Nat)
    (kh : Hash) (ki : Nat)
    (ho : ¬(kh = tx.hash ∧ ki < tx.outputs.length))
    (hi : tx.is_coinbase = true ∨ (kh, ki) ∉ txInputKeys tx) :
    (s.apply_transaction tx H).get kh ki = s.get kh ki := by
  unfold UTXOSet.apply_transaction
  rw [List.enum_eq_enumFrom, get_enumFrom_add_untouched _ 0 _ _ _ _ _
    (by intro hx; exact ho ⟨hx.1, by omega⟩)]
  rcases hi with hcb | hnin
  · rw [if_pos hcb]
  · by_cases hcb : tx.is_coinbase = true
    · rw [if_pos hcb]
    · rw [if_neg hcb, get_foldl_remove_inputs,
        if_neg (by simpa [txInputKeys] using hnin)]

theorem revert_transaction_get_untouched (s : UTXOSet) (tx : Transaction)
    (sp : List (UTXOKey × UTXO)) (kh : Hash) (ki : Nat)
    (ho : ¬(kh = tx.hash ∧ ki < tx.outputs.length))
    (ha : ∀ p ∈ sp, p.1 ≠ (kh, ki)) :
    (s.revert_transaction tx sp).get kh ki = s.get kh ki := by
  unfold UTXOSet.revert_transaction
  rw [get_foldl_add_pairs_untouched _ _ _ _ ha, List.enum_eq_enumFrom,
    get_enumFrom_remove]
  rw [if_neg (fun hx => ho ⟨hx.1, by omega⟩)]

theorem revert_transaction_get_none (s : UTXOSet) (tx : Transaction)
    (sp : List (UTXOKey × UTXO)) (kh : Hash) (ki : Nat)
    (ho : kh = tx.hash ∧ ki < tx.outputs.length)
    (ha : ∀ p ∈ sp, p.1 ≠ (kh, ki)) :
    (s.revert_transaction tx sp).get kh ki = none := by
  unfold UTXOSet.revert_transaction
  rw [get_foldl_add_pairs_untouched _ _ _ _ ha, List.enum_eq_enumFrom,
    get_enumFrom_remove, if_pos ⟨ho.1, by omega, by omega⟩]

theorem revert_transaction_get_some (s : UTXOSet) (tx : Transaction)
    (sp : List (UTXOKey × UTXO)) (kh : Hash) (ki : Nat) (u : UTXO)
    (hall : ∀ p ∈ sp, p.1 = (kh, ki) → p.2 = u)
    (hmem : ((kh, ki), u) ∈ sp) :
    (s.revert_transaction tx sp).get kh ki = some u := by
  unfold UTXOSet.revert_transaction
  exact get_foldl_add_pairs_some _ _ _ _ _ hall hmem

theorem applyFold_untouched (l : List Transaction) (H : Nat) (s : UTXOSet)
    (kh : Hash) (ki : Nat)
    (hcond : ∀ tx ∈ l, ¬(kh = tx.hash ∧ ki < tx.outputs.length) ∧
      (tx.is_coinbase = true ∨ (kh, ki) ∉ txInputKeys tx)) :
    (l.foldl (fun u tx => u.apply_transaction tx H) s).get kh ki = s.get kh ki := by
  induction l generalizing s with
  | nil => rfl
  | cons a t ih =>
    rw [List.foldl_cons, ih _ (fun tx htx => hcond tx (by simp [htx])),
      apply_transaction_get_untouched _ _ _ _ _ (hcond a (by simp)).1
      (hcond a (by simp)).2]

theorem revertFold_untouched (spent : List (UTXOKey × UTXO))
    (l : List Transaction) (s : UTXOSet) (kh : Hash) (ki : Nat)
    (hcond : ∀ tx ∈ l, ¬(kh = tx.hash ∧ ki < tx.outputs.length))
    (ha : ∀ p ∈ spent, p.1 ≠ (kh, ki)) :
    (l.foldl (fun u tx => u.revert_transaction tx (spent.filter
      (fun p => tx.inputs.any (fun i => i.prev_tx_hash == p.1.1)))) s).get kh ki =
      s.get kh ki := by
  induction l generalizing s with
  | nil => rfl
  | cons a t ih =>
    rw [List.foldl_cons, ih _ (fun tx htx => hcond tx (by simp [htx])),
      revert_transaction_get_untouched _ _ _ _ _ (hcond a (by simp))
      (fun p hp => ha p (List.mem_filter.mp hp).1)]

theorem revertFold_none_preserve (spent : List (UTXOKey × UTXO))
    (l : List Transaction) (s : UTXOSet) (kh : Hash) (ki : Nat)
    (ha : ∀ p ∈ spent, p.1 ≠ (kh, ki)) (hs : s.get kh ki = none) :
    (l.foldl (fun u tx => u.revert_transaction tx (spent.filter
      (fun p => tx.inputs.any (fun i => i.prev_tx_hash == p.1.1)))) s).get kh ki =
      none := by
  induction l generalizing s with
  | nil => exact hs
  | cons a t ih =>
    rw [List.foldl_cons]
    refine ih _ ?_
    by_cases hhd : kh = a.hash ∧ ki < a.outputs.length
    · exact revert_transaction_get_none _ _ _ _ _ hhd
        (fun p hp => ha p (List.mem_filter.mp hp).1)
    · rw [revert_transaction_get_untouched _ _ _ _ _ hhd
        (fun p hp => ha p (List.mem_filter.mp hp).1)]
      exact hs

theorem revertFold_none (spent : List (UTXOKey × UTXO)) (l : List Transaction)
    (s : UTXOSet) (kh : Hash) (ki : Nat)
    (ha : ∀ p ∈ spent, p.1 ≠ (kh, ki))
    (hex : ∃ tx ∈ l, kh = tx.hash ∧ ki < tx.outputs.length) :
    (l.foldl (fun u tx => u.revert_transaction tx (spent.filter
      (fun p => tx.inputs.any (fun i => i.prev_tx_hash == p.1.1)))) s).get kh ki =
      none := by
  induction l generalizing s with
  | nil => simp at hex
  | cons a t ih =>
    rw [List.foldl_cons]
    by_cases hhd : kh = a.hash ∧ ki < a.outputs.length
    · exact revertFold_none_preserve spent t _ kh ki ha
        (revert_transaction_get_none _ _ _ _ _ hhd
          (fun p hp => ha p (List.mem_filter.mp hp).1))
    · rcases hex with ⟨tx, htx, hc⟩
      rcases List.mem_cons.mp htx with rfl | htail
      · exact absurd hc hhd
      · exact ih _ ⟨tx, htail, hc⟩

theorem revertFold_some_preserve (spent : List (UTXOKey × UTXO))
    (l : List Transaction) (s : UTXOSet) (kh : Hash) (ki : Nat) (u : UTXO)
    (hno : ∀ tx ∈ l, ¬(kh = tx.hash ∧ ki < tx.outputs.length))
    (hall : ∀ p ∈ spent, p.1 = (kh, ki) → p.2 = u)
    (hs : s.get kh ki = some u) :
    (l.foldl (fun u2 tx => u2.revert_transaction tx (spent.filter
      (fun p => tx.inputs.any (fun i => i.prev_tx_hash == p.1.1)))) s).get kh ki =
      some u := by
  induction l generalizing s with
  | nil => exact hs
  | cons a t ih =>
    rw [List.foldl_cons]
    refine ih _ (fun tx htx => hno tx (by simp [htx])) ?_
    by_cases hmem : ((kh, ki), u) ∈ spent.filter
        (fun p => a.inputs.any (fun i => i.prev_tx_hash == p.1.1))
    · exact revert_transaction_get_some _ _ _ _ _ _
        (fun p hp => hall p (List.mem_filter.mp hp).1) hmem
    · rw [revert_transaction_get_untouched _ _ _ _ _ (hno a (by simp)) ?hadd]
      · exact hs
      case hadd =>
        intro p hp hpk
        have hval := hall p (List.mem_filter.mp hp).1 hpk
        have hpe : ((kh, ki), u) = p := by rw [← hpk, ← hval]
        exact hmem (hpe ▸ hp)

theorem revertFold_some (spent : List (UTXOKey × UTXO)) (l : List Transaction)
    (s : UTXOSet) (kh : Hash) (ki : Nat) (u : UTXO)
    (hno : ∀ tx ∈ l, ¬(kh = tx.hash ∧ ki < tx.outputs.length))
    (hall : ∀ p ∈ spent, p.1 = (kh, ki) → p.2 = u)
    (hex : ∃ tx ∈ l, ((kh, ki), u) ∈ spent.filter
      (fun p => tx.inputs.any (fun i => i.prev_tx_hash == p.1.1))) :
    (l.foldl (fun u2 tx => u2.revert_transaction tx (spent.filter
      (fun p => tx.inputs.any (fun i => i.prev_tx_hash == p.1.1)))) s).get kh ki =
      some u := by
  induction l generalizing s with
  | nil => simp at hex
  | cons a t ih =>
    rw [List.foldl_cons]
    by_cases hmem : ((kh, ki), u) ∈ spent.filter
        (fun p => a.inputs.any (fun i => i.prev_tx_hash == p.1.1))
    · exact revertFold_some_preserve spent t _ kh ki u
        (fun tx htx => hno tx (by simp [htx])) hall
        (revert_transaction_get_some _ _ _ _ _ _
          (fun p hp => hall p (List.mem_filter.mp hp).1) hmem)
    · rcases hex with ⟨tx, htx, hc⟩
      rcases List.mem_cons.mp htx with rfl | htail
      · exact absurd hc hmem
      · exact ih _ (fun tx2 htx2 => hno tx2 (by simp [htx2])) ⟨tx, htail, hc⟩

theorem collectSpent_ok_facts (u : UTXOSet) :
    ∀ (l : List TxInput) (res : List (UTXOKey × UTXO)),
    collectSpent u l = .ok res →
    (∀ p ∈ res, u.get p.1.1 p.1.2 = some p.2) ∧
    (∀ i ∈ l, ∃ uu, ((i.prev_tx_hash, i.output_index), uu) ∈ res) ∧
    (∀ p ∈ res, p.1 ∈ l.map (fun i => (i.prev_tx_hash, i.output_index))) := by
  intro l
  induction l with
  | nil =>
    intro res h
    cases h
    exact ⟨by simp, by simp, by simp⟩
  | cons i rest ih =>
    intro res h
    unfold collectSpent at h
    cases hg : u.get i.prev_tx_hash i.output_index with
    | none => rw [hg] at h; cases h
    | some utxo =>
      rw [hg] at h
      cases hr : collectSpent u rest with
      | error e => rw [hr] at h; cases h
      | ok res2 =>
        rw [hr] at h
        simp only [Except.map] at h
        cases h
        obtain ⟨f1, f2, f3⟩ := ih res2 hr
        refine ⟨?_, ?_, ?_⟩
        · intro p hp
          rcases List.mem_cons.mp hp with rfl | htail
          · exact hg
          · exact f1 p htail
        · intro j hj
          rcases List.mem_cons.mp hj with rfl | htail
          · exact ⟨utxo, by simp⟩
          · obtain ⟨uu, huu⟩ := f2 j htail
            exact ⟨uu, by simp [huu]⟩
        · intro p hp
          rcases List.mem_cons.mp hp with rfl | htail
          · simp
          · simp [f3 p htail]

theorem validateBlockTxs_go (sigOk : SigVerifier) (u : UTXOSet) (ti H : Nat) :
    ∀ (txs : List Transaction) (acc : List (UTXOKey × UTXO) × Nat × Nat × Nat)
      (spent : List (UTXOKey × UTXO)) (st : Nat × Nat × Nat),
    List.foldlM (applyTxCheck sigOk u ti H) acc txs = .ok (spent, st) →
    ∃ extra, spent = acc.1 ++ extra ∧
      (∀ p ∈ extra, u.get p.1.1 p.1.2 = some p.2 ∧
        ∃ tx ∈ txs, tx.is_coinbase = false ∧ p.1 ∈ txInputKeys tx) ∧
      (∀ tx ∈ txs, tx.is_coinbase = false → ∀ i ∈ tx.inputs,
        ∃ uu, ((i.prev_tx_hash, i.output_index), uu) ∈ extra) := by
  intro txs
  induction txs with
  | nil =>
    intro acc spent st h
    rw [List.foldlM_nil] at h
    cases h
    exact ⟨[], by simp, by simp, by simp⟩
  | cons tx rest ih =>
    intro acc spent st h
    obtain ⟨accS, accSub, accCb, accFees⟩ := acc
    rw [List.foldlM_cons] at h
    cases hstep : applyTxCheck sigOk u ti H (accS, accSub, accCb, accFees) tx with
    | error e =>
      rw [hstep] at h
      rw [show ((Except.error e >>= fun acc2 =>
        List.foldlM (applyTxCheck sigOk u ti H) acc2 rest) :
          Except String (List (UTXOKey × UTXO) × Nat × Nat × Nat)) =
        Except.error e from rfl] at h
      cases h
    | ok acc2 =>
      rw [hstep] at h
      rw [show ((Except.ok acc2 >>= fun a =>
        List.foldlM (applyTxCheck sigOk u ti H) a rest) :
          Except String (List (UTXOKey × UTXO) × Nat × Nat × Nat)) =
        List.foldlM (applyTxCheck sigOk u ti H) acc2 rest from rfl] at h
      obtain ⟨extra2, hsp, hfacts, hinputs⟩ := ih acc2 spent st h
      unfold applyTxCheck at hstep
      dsimp only at hstep
      by_cases hcb : tx.is_coinbase = true
      · rw [if_pos hcb] at hstep
        split at hstep
        · cases hstep
        · cases hstep
          refine ⟨extra2, hsp, ?_, ?_⟩
          · intro p hp
            obtain ⟨hg, tx2, htx2, hf⟩ := hfacts p hp
            exact ⟨hg, tx2, by simp [htx2], hf⟩
          · intro tx2 htx2 hcb2 i hi
            rcases List.mem_cons.mp htx2 with rfl | htail
            · rw [hcb] at hcb2; cases hcb2
            · exact hinputs tx2 htail hcb2 i hi
      · rw [if_neg hcb] at hstep
        split at hstep
        · cases hstep
        · split at hstep
          · cases hstep
          · rename_i hcollect
            split at hstep
            · rename_i txSpent hcol
              cases hstep
              obtain ⟨c1, c2, c3⟩ := collectSpent_ok_facts u tx.inputs txSpent hcol
              refine ⟨txSpent ++ extra2, by simp [hsp], ?_, ?_⟩
              · intro p hp
                rcases List.mem_append.mp hp with hl | hr
                · refine ⟨c1 p hl, tx, by simp, by simpa using hcb, ?_⟩
                  simpa [txInputKeys] using c3 p hl
                · obtain ⟨hg, tx2, htx2, hf⟩ := hfacts p hr
                  exact ⟨hg, tx2, by simp [htx2], hf⟩
              · intro tx2 htx2 hcb2 i hi
                rcases List.mem_cons.mp htx2 with rfl | htail
                · obtain ⟨uu, huu⟩ := c2 i hi
                  exact ⟨uu, by simp [huu]⟩
                · obtain ⟨uu, huu⟩ := hinputs tx2 htail hcb2 i hi
                  exact ⟨uu, by simp [huu]⟩
            · cases hstep

theorem block_hash_ne_prev (b : Block) : b.hash ≠ b.header.prev_hash := by
  intro h
  have hlen := congrArg (fun x => x.bytes.length) h
  simp [Block.hash, BlockHeader.hash, hash_bytes, BlockHeader.to_bytes, leBytes4,
    leBytes8] at hlen
  omega

theorem validateBlockTxs_ok_facts {sigOk : SigVerifier} {u : UTXOSet}
    {ti H : Nat} {txs : List Transaction} {spent : List (UTXOKey × UTXO)}
    {st : Nat × Nat × Nat}
    (h : validateBlockTxs sigOk u ti H txs = .ok (spent, st)) :
    (∀ p ∈ spent, u.get p.1.1 p.1.2 = some p.2) ∧
    (∀ tx ∈ txs, tx.is_coinbase = false → ∀ i ∈ tx.inputs,
      ∃ uu, ((i.prev_tx_hash, i.output_index), uu) ∈ spent) ∧
    (∀ p ∈ spent, ∃ tx ∈ txs, tx.is_coinbase = false ∧ p.1 ∈ txInputKeys tx) := by
  obtain ⟨extra, hsp, hfacts, hinputs⟩ :=
    validateBlockTxs_go sigOk u ti H txs ([], 0, 0, 0) spent st h
  simp only [List.nil_append] at hsp
  subst hsp
  exact ⟨fun p hp => (hfacts p hp).1, hinputs, fun p hp => (hfacts p hp).2⟩

theorem apply_block_ok_elim (sigOk : SigVerifier) (now : Nat) (s : ChainState)
    (b : Block) (spent : List (UTXOKey × UTXO))
    (happly : (ChainState.apply_block sigOk now s b).1 = .ok spent) :
    ∃ subsidy cbReward fees,
      validateBlockTxs sigOk s.utxo_set s.total_issued ((s.height + 1) % U64)
        b.transactions = .ok (spent, subsidy, cbReward, fees) ∧
      (ChainState.apply_block sigOk now s b).2 =
        { s with
          utxo_set := b.transactions.foldl
            (fun u tx => u.apply_transaction tx ((s.height + 1) % U64)) s.utxo_set
          total_issued := satAdd64 s.total_issued subsidy
          height := (s.height + 1) % U64
          tip_hash := b.hash
          difficulty := b.header.difficulty_target
          height_to_hash := fun n =>
            if n = (s.height + 1) % U64 then some b.hash else s.height_to_hash n
          recent_block_timestamps :=
            if (s.recent_block_timestamps ++ [b.header.timestamp]).length > 11 then
              (s.recent_block_timestamps ++ [b.header.timestamp]).tail
            else s.recent_block_timestamps ++ [b.header.timestamp]
          block_index := fun h =>
            if h = b.hash then
              some ⟨b.header, (s.height + 1) % U64,
                satAdd64 s.total_issued subsidy, spent⟩
            else s.block_index h
          full_blocks := fun h => if h = b.hash then some b else s.full_blocks h
          mempool := (cleanMempool s.mempool s.next_nonce b).1
          next_nonce := (cleanMempool s.mempool s.next_nonce b).2 } := by
  revert happly
  unfold ChainState.apply_block
  dsimp only
  split
  · intro h
    exact Except.noConfusion h
  · split
    · intro h
      exact Except.noConfusion h
    · split
      · intro h
        exact Except.noConfusion h
      · split
        · intro h
          exact Except.noConfusion h
        · next spentU tsub tcbr tfees heq =>
          split
          · intro h
            exact Except.noConfusion h
          · intro h
            have h2 : spentU = spent := Except.ok.inj h
            subst h2
            exact ⟨tsub, tcbr, tfees, heq, rfl⟩

theorem revert_tip_eq (t : ChainState) (blk : Block) (e : BlockIndexEntry)
    (sp : List (UTXOKey × UTXO)) (hfb : t.full_blocks t.tip_hash = some blk)
    (hbi : t.block_index t.tip_hash = some e) (hsp : e.undo_data = sp) :
    ChainState.revert_tip t = (.ok (), t.revert_block blk sp) := by
  unfold ChainState.revert_tip
  rw [hfb, hbi]
  subst hsp
  rfl

theorem revert_block_height (t : ChainState) (blk : Block)
    (sp : List (UTXOKey × UTXO)) :
    (t.revert_block blk sp).height = (t.height + (U64 - 1)) % U64 := rfl

theorem revert_block_tip (t : ChainState) (blk : Block)
    (sp : List (UTXOKey × UTXO)) :
    (t.revert_block blk sp).tip_hash = blk.header.prev_hash := rfl

theorem revert_block_ti (t : ChainState) (blk : Block)
    (sp : List (UTXOKey × UTXO)) :
    (t.revert_block blk sp).total_issued =
      match t.block_index blk.header.prev_hash with
      | some entry => entry.total_issued
      | none => t.total_issued := rfl

theorem revert_block_diff (t : ChainState) (blk : Block)
    (sp : List (UTXOKey × UTXO)) :
    (t.revert_block blk sp).difficulty =
      match t.block_index blk.header.prev_hash with
      | some entry => entry.header.difficulty_target
      | none => t.difficulty := rfl

theorem revert_block_utxo (t : ChainState) (blk : Block)
    (sp : List (UTXOKey × UTXO)) :
    (t.revert_block blk sp).utxo_set =
      blk.transactions.reverse.foldl
        (fun u tx => u.revert_transaction tx (sp.filter
          (fun p => tx.inputs.any (fun i => i.prev_tx_hash == p.1.1))))
        t.utxo_set := rfl

/-- Claim C2 (amended): if `apply_block` succeeds on a state whose tip index
entry is consistent (as it is for every state the engine builds), the new
block connects to the tip, and the block creates only output keys that are
fresh in the UTXO set, then `revert_tip` succeeds and restores the UTXO set
and the four fields `height`, `tip_hash`, `total_issued`, `difficulty` to
their pre-apply values.  Without the freshness condition the UTXO set is not
restored (see the counterexample: a coinbase whose key already exists is
destroyed by the round trip). -/
theorem apply_then_revert_roundtrip (sigOk : SigVerifier) (now : Nat)
    (s : ChainState) (b : Block) (spent : List (UTXOKey × UTXO))
    (e : BlockIndexEntry)
    (happly : (ChainState.apply_block sigOk now s b).1 = .ok spent)
    (hprev : b.header.prev_hash = s.tip_hash)
    (hidx : s.block_index s.tip_hash = some e)
    (hie : e.total_issued = s.total_issued)
    (hid : e.header.difficulty_target = s.difficulty)
    (hfresh : ∀ tx ∈ b.transactions, ∀ j, j < tx.outputs.length →
      s.utxo_set.get tx.hash j = none)
    (hh : s.height < U64) :
    (ChainState.revert_tip (ChainState.apply_block sigOk now s b).2).1 = .ok () ∧
    (∀ kh ki,
      (ChainState.revert_tip
        (ChainState.apply_block sigOk now s b).2).2.utxo_set.get kh ki =
      s.utxo_set.get kh ki) ∧
    (ChainState.revert_tip (ChainState.apply_block sigOk now s b).2).2.height
      = s.height ∧
    (ChainState.revert_tip (ChainState.apply_block sigOk now s b).2).2.tip_hash
      = s.tip_hash ∧
    (ChainState.revert_tip
      (ChainState.apply_block sigOk now s b).2).2.total_issued
      = s.total_issued ∧
    (ChainState.revert_tip
      (ChainState.apply_block sigOk now s b).2).2.difficulty
      = s.difficulty := by
  obtain ⟨subsidy, cbr, fees, hvbt, hs1⟩ :=
    apply_block_ok_elim sigOk now s b spent happly
  obtain ⟨F1, F2, F3⟩ := validateBlockTxs_ok_facts hvbt
  have hfb : (ChainState.apply_block sigOk now s b).2.full_blocks
      (ChainState.apply_block sigOk now s b).2.tip_hash = some b := by
    rw [hs1]
    simp
  have hbi : (ChainState.apply_block sigOk now s b).2.block_index
      (ChainState.apply_block sigOk now s b).2.tip_hash =
      some ⟨b.header, (s.height + 1) % U64,
        satAdd64 s.total_issued subsidy, spent⟩ := by
    rw [hs1]
    simp
  rw [revert_tip_eq _ b _ spent hfb hbi rfl]
  have hU : U64 = 18446744073709551616 := by norm_num [U64]
  have hprevhash : ¬ b.header.prev_hash = b.hash :=
    fun hx => block_hash_ne_prev b hx.symm
  have hidx2 : (ChainState.apply_block sigOk now s b).2.block_index
      b.header.prev_hash = some e := by
    rw [hs1]
    simp only [if_neg hprevhash]
    rw [hprev, hidx]
  refine ⟨rfl, ?_, ?_, ?_, ?_, ?_⟩
  · intro kh ki
    rw [revert_block_utxo]
    rw [show (ChainState.apply_block sigOk now s b).2.utxo_set =
      b.transactions.foldl
        (fun u tx => u.apply_transaction tx ((s.height + 1) % U64)) s.utxo_set
      from by rw [hs1]]
    by_cases hout : ∃ tx ∈ b.transactions, kh = tx.hash ∧ ki < tx.outputs.length
    · obtain ⟨tx0, htx0, hc0⟩ := hout
      have hsget : s.utxo_set.get kh ki = none := by
        rw [hc0.1]
        exact hfresh tx0 htx0 ki hc0.2
      have hnadds : ∀ p ∈ spent, p.1 ≠ (kh, ki) := by
        intro p hp hpk
        have h2 := F1 p hp
        rw [hpk] at h2
        have h3 : s.utxo_set.get kh ki = some p.2 := h2
        rw [hsget] at h3
        cases h3
      rw [revertFold_none spent _ _ _ _ hnadds
        ⟨tx0, List.mem_reverse.mpr htx0, hc0⟩, hsget]
    · by_cases hsp : ∃ uu, ((kh, ki), uu) ∈ spent
      · obtain ⟨u0, hu0⟩ := hsp
        have hsget : s.utxo_set.get kh ki = some u0 := F1 _ hu0
        have hall : ∀ p ∈ spent, p.1 = (kh, ki) → p.2 = u0 := by
          intro p hp hpk
          have h2 := F1 p hp
          rw [hpk] at h2
          have h3 : s.utxo_set.get kh ki = some p.2 := h2
          rw [hsget] at h3
          exact (Option.some.inj h3).symm
        have hnrem : ∀ tx ∈ b.transactions.reverse,
            ¬(kh = tx.hash ∧ ki < tx.outputs.length) :=
          fun tx htx hc => hout ⟨tx, List.mem_reverse.mp htx, hc⟩
        have hex : ∃ tx ∈ b.transactions.reverse, ((kh, ki), u0) ∈ spent.filter
            (fun p => tx.inputs.any (fun i => i.prev_tx_hash == p.1.1)) := by
          obtain ⟨tx1, htx1, hcb1, hkey⟩ := F3 _ hu0
          refine ⟨tx1, List.mem_reverse.mpr htx1, ?_⟩
          rw [List.mem_filter]
          refine ⟨hu0, ?_⟩
          rw [List.any_eq_true]
          simp only [txInputKeys, List.mem_map] at hkey
          obtain ⟨i, hi, hik⟩ := hkey
          exact ⟨i, hi, by rw [beq_iff_eq]; exact congrArg Prod.fst hik⟩
        rw [revertFold_some spent _ _ _ _ _ hnrem hall hex, hsget]
      · have hnadds : ∀ p ∈ spent, p.1 ≠ (kh, ki) := by
          intro p hp hpk
          refine hsp ⟨p.2, ?_⟩
          have hpe : ((kh, ki), p.2) = p := by rw [← hpk]
          exact hpe ▸ hp
        have happlyU : ∀ tx ∈ b.transactions,
            ¬(kh = tx.hash ∧ ki < tx.outputs.length) ∧
            (tx.is_coinbase = true ∨ (kh, ki) ∉ txInputKeys tx) := by
          intro tx htx
          refine ⟨fun hc => hout ⟨tx, htx, hc⟩, ?_⟩
          by_cases hcb : tx.is_coinbase = true
          · exact Or.inl hcb
          · refine Or.inr (fun hin => ?_)
            simp only [txInputKeys, List.mem_map] at hin
            obtain ⟨i, hi, hik⟩ := hin
            obtain ⟨uu, huu⟩ := F2 tx htx (by simpa using hcb) i hi
            rw [hik] at huu
            exact hsp ⟨uu, huu⟩
        rw [revertFold_untouched spent _ _ _ _
          (fun tx htx hc => hout ⟨tx, List.mem_reverse.mp htx, hc⟩) hnadds,
          applyFold_untouched _ _ _ _ _ happlyU]
  · rw [revert_block_height,
      show (ChainState.apply_block sigOk now s b).2.height = (s.height + 1) % U64
        from by rw [hs1]]
    rw [hU] at hh ⊢
    omega
  · rw [revert_block_tip, hprev]
  · rw [revert_block_ti, hidx2]
    exact hie
  · rw [revert_block_diff, hidx2]
    exact hid

/-- Claim C2 counterexample: apply followed by revert is not an inverse in
general.  Applying `demoB1` and then `demoB2dup` (whose coinbase is
byte-identical to the one of `demoB1`, so both share the UTXO key
`(demoDupCb.hash, 0)`) succeeds, and `revert_tip` succeeds, yet the UTXO
created by `demoB1` is gone: the second apply silently overwrote it and the
revert removed the key outright.  `HashMap::insert` and `remove` do not
count duplicates, so the round trip loses state. -/
theorem apply_then_revert_not_inverse_counterexample :
    (ChainState.apply_block sigAlwaysOk 1000 demoState demoB1).1 =
      .ok [] ∧
    (ChainState.apply_block sigAlwaysOk 1000 demoState1 demoB2dup).1 =
      .ok [] ∧
    (ChainState.revert_tip demoState2dup).1 = .ok () ∧
    demoState1.utxo_set.get demoDupCb.hash 0 =
      some ⟨5000, hash_bytes [1], 1⟩ ∧
    (ChainState.revert_tip demoState2dup).2.utxo_set.get demoDupCb.hash 0 =
      none := by
  refine ⟨rfl, rfl, rfl, by decide, by decide⟩

theorem apply_then_revert_roundtrip_witness :
    (ChainState.revert_tip
      (ChainState.apply_block sigAlwaysOk 1000 demoState demoB1).2).1 =
      .ok () ∧
    (ChainState.revert_tip
      (ChainState.apply_block sigAlwaysOk 1000 demoState demoB1).2).2.tip_hash
      = demoState.tip_hash :=
  ⟨(apply_then_revert_roundtrip sigAlwaysOk 1000 demoState demoB1 []
      ⟨demoGenesis.header, 0, 0, []⟩ rfl rfl (by decide) rfl rfl
      (by decide) (by decide)).1,
   (apply_then_revert_roundtrip sigAlwaysOk 1000 demoState demoB1 []
      ⟨demoGenesis.header, 0, 0, []⟩ rfl rfl (by decide) rfl rfl
      (by decide) (by decide)).2.2.2.1⟩

theorem simTo_refl (s : ChainState) : simTo s s :=
  ⟨rfl, rfl, rfl, rfl, rfl, fun _ _ => rfl, fun _ _ h => h, fun _ _ h => h⟩

theorem simTo_trans (a b c : ChainState) (h1 : simTo a b) (h2 : simTo b c) :
    simTo a c := by
  obtain ⟨x1, x2, x3, x4, x5, x6, x7, x8⟩ := h1
  obtain ⟨y1, y2, y3, y4, y5, y6, y7, y8⟩ := h2
  refine ⟨x1.trans y1, x2.trans y2, x3.trans y3, x4.trans y4, x5.trans y5,
    fun kh ki => (x6 kh ki).trans (y6 kh ki),
    fun h e he => x7 h e (y7 h e he), fun h blk hb => x8 h blk (y8 h blk hb)⟩

theorem simTo_index_block (s : ChainState) (blk : Block)
    (hfb : s.full_blocks blk.hash = none) :
    simTo (ChainState.index_block s blk) s := by
  unfold ChainState.index_block
  by_cases hi : (s.block_index blk.hash).isSome
  · rw [if_pos hi]
    exact simTo_refl s
  · rw [if_neg hi]
    refine ⟨rfl, rfl, rfl, rfl, rfl, fun _ _ => rfl, ?_, ?_⟩
    · intro h e he
      dsimp only
      by_cases hh : h = blk.hash
      · rw [hh] at he
        rw [he] at hi
        exact absurd rfl hi
      · rw [if_neg hh]
        exact he
    · intro h b2 hb
      dsimp only
      by_cases hh : h = blk.hash
      · rw [hh] at hb
        rw [hfb] at hb
        exact Option.noConfusion hb
      · rw [if_neg hh]
        exact hb

theorem removeFold_get_congr (l : List TxInput) (u1 u2 : UTXOSet)
    (hpt : ∀ kh ki, u1.get kh ki = u2.get kh ki) (kh : Hash) (ki : Nat) :
    (l.foldl (fun acc i => acc.remove i.prev_tx_hash i.output_index) u1).get kh ki
      = (l.foldl (fun acc i => acc.remove i.prev_tx_hash i.output_index) u2).get
        kh ki := by
  rw [get_foldl_remove_inputs, get_foldl_remove_inputs]
  split
  · rfl
  · exact hpt kh ki

theorem addPairsFold_get_congr (l : List (Nat × TxOutput)) (h : Hash) (H : Nat)
    (u1 u2 : UTXOSet) (hpt : ∀ kh ki, u1.get kh ki = u2.get kh ki)
    (kh : Hash) (ki : Nat) :
    (l.foldl (fun acc p => acc.add h p.1 ⟨p.2.amount, p.2.pubkey_hash, H⟩)
      u1).get kh ki =
    (l.foldl (fun acc p => acc.add h p.1 ⟨p.2.amount, p.2.pubkey_hash, H⟩)
      u2).get kh ki := by
  induction l generalizing u1 u2 with
  | nil => exact hpt kh ki
  | cons a t ih =>
    rw [List.foldl_cons, List.foldl_cons]
    refine ih _ _ ?_ 
    intro kh2 ki2
    rw [UTXOSet.get_add, UTXOSet.get_add]
    split
    · rfl
    · exact hpt kh2 ki2

theorem apply_transaction_get_congr (tx : Transaction) (H : Nat)
    (u1 u2 : UTXOSet) (hpt : ∀ kh ki, u1.get kh ki = u2.get kh ki)
    (kh : Hash) (ki : Nat) :
    (u1.apply_transaction tx H).get kh ki = (u2.apply_transaction tx H).get kh ki := by
  unfold UTXOSet.apply_transaction
  dsimp only
  by_cases hc : tx.is_coinbase
  · rw [if_pos hc, if_pos hc]
    exact addPairsFold_get_congr _ _ _ _ _ hpt kh ki
  · rw [if_neg hc, if_neg hc]
    exact addPairsFold_get_congr _ _ _ _ _
      (fun kh2 ki2 => removeFold_get_congr _ _ _ hpt kh2 ki2) kh ki

theorem applyFold_get_congr (l : List Transaction) (H : Nat) (u1 u2 : UTXOSet)
    (hpt : ∀ kh ki, u1.get kh ki = u2.get kh ki) (kh : Hash) (ki : Nat) :
    (l.foldl (fun u tx => u.apply_transaction tx H) u1).get kh ki =
    (l.foldl (fun u tx => u.apply_transaction tx H) u2).get kh ki := by
  induction l generalizing u1 u2 with
  | nil => exact hpt kh ki
  | cons a t ih =>
    rw [List.foldl_cons, List.foldl_cons]
    exact ih _ _ (fun kh2 ki2 => apply_transaction_get_congr _ _ _ _ hpt kh2 ki2)

theorem collectSpent_congr (u1 u2 : UTXOSet)
    (hpt : ∀ kh ki, u1.get kh ki = u2.get kh ki) (l : List TxInput) :
    collectSpent u1 l = collectSpent u2 l := by
  induction l with
  | nil => rfl
  | cons a t ih =>
    unfold collectSpent
    rw [hpt a.prev_tx_hash a.output_index, ih]

theorem verify_signatures_congr (tx : Transaction) (sigOk : SigVerifier)
    (u1 u2 : UTXOSet) (hpt : ∀ kh ki, u1.get kh ki = u2.get kh ki) :
    tx.verify_signatures sigOk u1 = tx.verify_signatures sigOk u2 := by
  unfold Transaction.verify_signatures
  by_cases hc : tx.is_coinbase
  · rw [if_pos hc, if_pos hc]
  · rw [if_neg hc, if_neg hc]
    simp only [hpt]

theorem total_input_value_congr (tx : Transaction) (u1 u2 : UTXOSet)
    (hpt : ∀ kh ki, u1.get kh ki = u2.get kh ki) :
    tx.total_input_value u1 = tx.total_input_value u2 := by
  unfold Transaction.total_input_value
  simp only [hpt]

theorem applyTxCheck_congr (sigOk : SigVerifier) (u1 u2 : UTXOSet)
    (hpt : ∀ kh ki, u1.get kh ki = u2.get kh ki) (ti nh : Nat)
    (acc : List (UTXOKey × UTXO) × Nat × Nat × Nat) (tx : Transaction) :
    applyTxCheck sigOk u1 ti nh acc tx = applyTxCheck sigOk u2 ti nh acc tx := by
  obtain ⟨spent, subsidy, cbReward, fees⟩ := acc
  unfold applyTxCheck
  dsimp only
  rw [verify_signatures_congr tx sigOk u1 u2 hpt,
    total_input_value_congr tx u1 u2 hpt, collectSpent_congr u1 u2 hpt]

theorem validateBlockTxs_congr (sigOk : SigVerifier) (u1 u2 : UTXOSet)
    (hpt : ∀ kh ki, u1.get kh ki = u2.get kh ki) (ti nh : Nat)
    (txs : List Transaction) :
    validateBlockTxs sigOk u1 ti nh txs = validateBlockTxs sigOk u2 ti nh txs := by
  unfold validateBlockTxs
  generalize ([], 0, 0, 0) = acc
  induction txs generalizing acc with
  | nil => rfl
  | cons a t ih =>
    rw [List.foldlM_cons, List.foldlM_cons, applyTxCheck_congr sigOk u1 u2 hpt]
    cases applyTxCheck sigOk u2 ti nh acc a with
    | error e => rfl
    | ok acc2 =>
      rw [show (Except.ok acc2 >>= fun a2 =>
          List.foldlM (applyTxCheck sigOk u1 ti nh) a2 t) =
          List.foldlM (applyTxCheck sigOk u1 ti nh) acc2 t from rfl,
        show (Except.ok acc2 >>= fun a2 =>
          List.foldlM (applyTxCheck sigOk u2 ti nh) a2 t) =
          List.foldlM (applyTxCheck sigOk u2 ti nh) acc2 t from rfl]
      exact ih acc2

theorem calculate_median_time_congr (t s : ChainState)
    (h : t.recent_block_timestamps = s.recent_block_timestamps) :
    t.calculate_median_time = s.calculate_median_time := by
  unfold ChainState.calculate_median_time
  rw [h]

theorem validate_block_timestamp_congr (t s : ChainState) (now ts : Nat)
    (h : t.recent_block_timestamps = s.recent_block_timestamps) :
    t.validate_block_timestamp now ts = s.validate_block_timestamp now ts := by
  unfold ChainState.validate_block_timestamp
  rw [calculate_median_time_congr t s h]

theorem apply_block_ok_conds (sigOk : SigVerifier) (now : Nat) (s : ChainState)
    (b : Block) (spent : List (UTXOKey × UTXO))
    (happly : (ChainState.apply_block sigOk now s b).1 = .ok spent) :
    b.header.chain_id = CHAIN_ID ∧
    s.validate_block_timestamp now b.header.timestamp = .ok () ∧
    ¬(b.header.prev_hash ≠ s.tip_hash ∧ s.height > 0) ∧
    ∃ subsidy cbReward fees,
      validateBlockTxs sigOk s.utxo_set s.total_issued ((s.height + 1) % U64)
        b.transactions = .ok (spent, subsidy, cbReward, fees) ∧
      ¬(cbReward > (subsidy + fees) % U64) := by
  revert happly
  unfold ChainState.apply_block
  dsimp only
  split
  · intro h
    exact Except.noConfusion h
  · next hcid =>
    split
    · intro h
      exact Except.noConfusion h
    · next u hvt =>
      split
      · intro h
        exact Except.noConfusion h
      · next hprev =>
        split
        · intro h
          exact Except.noConfusion h
        · next spentU tsub tcbr tfees heq =>
          split
          · intro h
            exact Except.noConfusion h
          · next hcb =>
            intro h
            have h2 : spentU = spent := Except.ok.inj h
            subst h2
            exact ⟨Decidable.not_not.mp hcid, hvt, hprev,
              tsub, tcbr, tfees, heq, hcb⟩

theorem apply_block_ok_intro (sigOk : SigVerifier) (now : Nat) (s : ChainState)
    (b : Block) (spent : List (UTXOKey × UTXO)) (subsidy cbReward fees : Nat)
    (hcid : b.header.chain_id = CHAIN_ID)
    (hvt : s.validate_block_timestamp now b.header.timestamp = .ok ())
    (hprev : ¬(b.header.prev_hash ≠ s.tip_hash ∧ s.height > 0))
    (hvbt : validateBlockTxs sigOk s.utxo_set s.total_issued ((s.height + 1) % U64)
      b.transactions = .ok (spent, subsidy, cbReward, fees))
    (hcb : ¬(cbReward > (subsidy + fees) % U64)) :
    ChainState.apply_block sigOk now s b =
      (.ok spent,
        { s with
          utxo_set := b.transactions.foldl
            (fun u tx => u.apply_transaction tx ((s.height + 1) % U64)) s.utxo_set
          total_issued := satAdd64 s.total_issued subsidy
          height := (s.height + 1) % U64
          tip_hash := b.hash
          difficulty := b.header.difficulty_target
          height_to_hash := fun n =>
            if n = (s.height + 1) % U64 then some b.hash else s.height_to_hash n
          recent_block_timestamps :=
            if (s.recent_block_timestamps ++ [b.header.timestamp]).length > 11 then
              (s.recent_block_timestamps ++ [b.header.timestamp]).tail
            else s.recent_block_timestamps ++ [b.header.timestamp]
          block_index := fun h =>
            if h = b.hash then
              some ⟨b.header, (s.height + 1) % U64,
                satAdd64 s.total_issued subsidy, spent⟩
            else s.block_index h
          full_blocks := fun h => if h = b.hash then some b else s.full_blocks h
          mempool := (cleanMempool s.mempool s.next_nonce b).1
          next_nonce := (cleanMempool s.mempool s.next_nonce b).2 }) := by
  unfold ChainState.apply_block
  dsimp only
  split
  · next hc => exact absurd hcid hc
  · split
    · next e heq =>
      rw [hvt] at heq
      exact Except.noConfusion heq
    · split
      · next e heq2 =>
        rw [hvbt] at heq2
        exact Except.noConfusion heq2
      · next spentU tsub tcbr tfees heq2 =>
        rw [hvbt] at heq2
        have h3 := Except.ok.inj heq2
        obtain ⟨rfl, rfl, rfl, rfl⟩ : spent = spentU ∧ subsidy = tsub ∧
            cbReward = tcbr ∧ fees = tfees := by
          simpa using h3
        split
        · next hcbr => exact absurd hcbr hcb
        · rfl

theorem apply_block_sim (sigOk : SigVerifier) (now : Nat) (T S : ChainState)
    (b : Block) (spent : List (UTXOKey × UTXO)) (hsim : simTo T S)
    (hok : (ChainState.apply_block sigOk now S b).1 = .ok spent) :
    (ChainState.apply_block sigOk now T b).1 = .ok spent ∧
    simTo (ChainState.apply_block sigOk now T b).2
      (ChainState.apply_block sigOk now S b).2 := by
  obtain ⟨hH, hTip, hTI, hD, hTS, hU, hBI, hFB⟩ := hsim
  obtain ⟨hcid, hvtS, hprevS, subsidy, cbReward, fees, hvbtS, hcbS⟩ :=
    apply_block_ok_conds sigOk now S b spent hok
  have hvtT : T.validate_block_timestamp now b.header.timestamp = .ok () := by
    rw [validate_block_timestamp_congr T S now b.header.timestamp hTS]
    exact hvtS
  have hprevT : ¬(b.header.prev_hash ≠ T.tip_hash ∧ T.height > 0) := by
    rw [hTip, hH]
    exact hprevS
  have hvbtT : validateBlockTxs sigOk T.utxo_set T.total_issued
      ((T.height + 1) % U64) b.transactions =
      .ok (spent, subsidy, cbReward, fees) := by
    rw [validateBlockTxs_congr sigOk T.utxo_set S.utxo_set hU, hTI, hH]
    exact hvbtS
  have hrecT := apply_block_ok_intro sigOk now T b spent subsidy cbReward fees
    hcid hvtT hprevT hvbtT hcbS
  have hrecS := apply_block_ok_intro sigOk now S b spent subsidy cbReward fees
    hcid hvtS hprevS hvbtS hcbS
  rw [hrecT, hrecS]
  refine ⟨rfl, ?_, rfl, ?_, rfl, ?_, ?_, ?_, ?_⟩
  · dsimp only
    rw [hH]
  · dsimp only
    rw [hTI]
  · dsimp only
    rw [hTS]
  · intro kh ki
    dsimp only
    rw [hH]
    exact applyFold_get_congr _ _ _ _ hU kh ki
  · intro h e he
    dsimp only at he ⊢
    by_cases hh : h = b.hash
    · rw [if_pos hh] at he ⊢
      rw [← hH, ← hTI] at he
      exact he
    · rw [if_neg hh] at he ⊢
      exact hBI h e he
  · intro h blk hb
    dsimp only at hb ⊢
    by_cases hh : h = b.hash
    · rw [if_pos hh] at hb ⊢
      exact hb
    · rw [if_neg hh] at hb ⊢
      exact hFB h blk hb

theorem revert_block_rbts (t : ChainState) (blk : Block)
    (sp : List (UTXOKey × UTXO)) :
    (t.revert_block blk sp).recent_block_timestamps =
      t.recent_block_timestamps.dropLast := rfl

theorem chainRel_height (sigOk : SigVerifier) (now : Nat) :
    ∀ (as : List Block) (S M : ChainState), chainRel sigOk now S as M →
    M.height = S.height + as.length := by
  intro as
  induction as with
  | nil =>
    intro S M hr
    rw [show M = S from hr]
    rfl
  | cons b rest ih =>
    intro S M hr
    obtain ⟨hg, hrest⟩ := hr
    obtain ⟨⟨spent, happly⟩, _, _, _, hh1, _⟩ := hg
    obtain ⟨subsidy, cbr, fees, hvbt, hs1⟩ :=
      apply_block_ok_elim sigOk now S b spent happly
    have hS1 : (ChainState.apply_block sigOk now S b).2.height =
        (S.height + 1) % U64 := by rw [hs1]
    have := ih _ _ hrest
    rw [this, hS1, Nat.mod_eq_of_lt hh1, List.length_cons]
    omega

theorem chainRel_snoc_elim (sigOk : SigVerifier) (now : Nat) :
    ∀ (as : List Block) (b : Block) (S M : ChainState),
    chainRel sigOk now S (as ++ [b]) M →
    ∃ M2, chainRel sigOk now S as M2 ∧ goodStep sigOk now M2 b ∧
      M = (ChainState.apply_block sigOk now M2 b).2 := by
  intro as
  induction as with
  | nil =>
    intro b S M hr
    obtain ⟨hg, hM⟩ := hr
    exact ⟨S, rfl, hg, hM⟩
  | cons a rest ih =>
    intro b S M hr
    obtain ⟨hg, hrest⟩ := hr
    obtain ⟨M2, h1, h2, h3⟩ := ih b _ M hrest
    exact ⟨M2, ⟨hg, h1⟩, h2, h3⟩

theorem revert_step_sim (sigOk : SigVerifier) (now : Nat) (s : ChainState)
    (b : Block) (t : ChainState) (hgood : goodStep sigOk now s b)
    (hsim : simTo t (ChainState.apply_block sigOk now s b).2) :
    ∃ t2, ChainState.revert_tip t = (.ok (), t2) ∧ simTo t2 s ∧
      t2.block_index = t.block_index ∧ t2.full_blocks = t.full_blocks := by
  obtain ⟨⟨spent, happly⟩, hprev, ⟨e, hidx, hie, hid⟩, hfresh, hh1, hts, hbiN, hfbN⟩ :=
    hgood
  obtain ⟨subsidy, cbr, fees, hvbt, hs1⟩ :=
    apply_block_ok_elim sigOk now s b spent happly
  obtain ⟨F1, F2, F3⟩ := validateBlockTxs_ok_facts hvbt
  obtain ⟨hH, hTip, hTI, hD, hTS, hU, hBI, hFB⟩ := hsim
  have hU64 : U64 = 18446744073709551616 := by norm_num [U64]
  have hprevhash : ¬ b.header.prev_hash = b.hash :=
    fun hx => block_hash_ne_prev b hx.symm
  have hAfb : (ChainState.apply_block sigOk now s b).2.full_blocks b.hash =
      some b := by
    rw [hs1]
    simp
  have hAbi : (ChainState.apply_block sigOk now s b).2.block_index b.hash =
      some ⟨b.header, (s.height + 1) % U64,
        satAdd64 s.total_issued subsidy, spent⟩ := by
    rw [hs1]
    simp
  have hAtip : (ChainState.apply_block sigOk now s b).2.tip_hash = b.hash := by
    rw [hs1]
  have htfb : t.full_blocks t.tip_hash = some b := by
    rw [hTip, hAtip]
    exact hFB _ _ hAfb
  have htbi : t.block_index t.tip_hash =
      some ⟨b.header, (s.height + 1) % U64,
        satAdd64 s.total_issued subsidy, spent⟩ := by
    rw [hTip, hAtip]
    exact hBI _ _ hAbi
  have hrt := revert_tip_eq t b _ spent htfb htbi rfl
  have hAbiPrev : (ChainState.apply_block sigOk now s b).2.block_index
      b.header.prev_hash = some e := by
    rw [hs1]
    simp only [if_neg hprevhash]
    rw [hprev, hidx]
  have htbiPrev : t.block_index b.header.prev_hash = some e := hBI _ _ hAbiPrev
  have hArbts : (ChainState.apply_block sigOk now s b).2.recent_block_timestamps
      = s.recent_block_timestamps ++ [b.header.timestamp] := by
    rw [hs1]
    dsimp only
    rw [if_neg (by simp only [List.length_append, List.length_cons,
      List.length_nil]; omega)]
  have hAheight : (ChainState.apply_block sigOk now s b).2.height =
      (s.height + 1) % U64 := by rw [hs1]
  have hAutxo : (ChainState.apply_block sigOk now s b).2.utxo_set =
      b.transactions.foldl
        (fun u tx => u.apply_transaction tx ((s.height + 1) % U64)) s.utxo_set := by
    rw [hs1]
  refine ⟨t.revert_block b spent, hrt, ⟨?_, ?_, ?_, ?_, ?_, ?_, ?_, ?_⟩, rfl, rfl⟩
  · rw [revert_block_height, hH, hAheight, Nat.mod_eq_of_lt hh1, hU64]
    rw [hU64] at hh1
    omega
  · rw [revert_block_tip, hprev]
  · rw [revert_block_ti, htbiPrev]
    exact hie
  · rw [revert_block_diff, htbiPrev]
    exact hid
  · rw [revert_block_rbts, hTS, hArbts]
    simp
  · intro kh ki
    rw [revert_block_utxo]
    by_cases hout : ∃ tx ∈ b.transactions, kh = tx.hash ∧ ki < tx.outputs.length
    · obtain ⟨tx0, htx0, hc0⟩ := hout
      have hsget : s.utxo_set.get kh ki = none := by
        rw [hc0.1]
        exact hfresh tx0 htx0 ki hc0.2
      have hnadds : ∀ p ∈ spent, p.1 ≠ (kh, ki) := by
        intro p hp hpk
        have h2 := F1 p hp
        rw [hpk] at h2
        have h3 : s.utxo_set.get kh ki = some p.2 := h2
        rw [hsget] at h3
        cases h3
      rw [revertFold_none spent _ _ _ _ hnadds
        ⟨tx0, List.mem_reverse.mpr htx0, hc0⟩, hsget]
    · by_cases hsp : ∃ uu, ((kh, ki), uu) ∈ spent
      · obtain ⟨u0, hu0⟩ := hsp
        have hsget : s.utxo_set.get kh ki = some u0 := F1 _ hu0
        have hall : ∀ p ∈ spent, p.1 = (kh, ki) → p.2 = u0 := by
          intro p hp hpk
          have h2 := F1 p hp
          rw [hpk] at h2
          have h3 : s.utxo_set.get kh ki = some p.2 := h2
          rw [hsget] at h3
          exact (Option.some.inj h3).symm
        have hnrem : ∀ tx ∈ b.transactions.reverse,
            ¬(kh = tx.hash ∧ ki < tx.outputs.length) :=
          fun tx htx hc => hout ⟨tx, List.mem_reverse.mp htx, hc⟩
        have hex : ∃ tx ∈ b.transactions.reverse, ((kh, ki), u0) ∈ spent.filter
            (fun p => tx.inputs.any (fun i => i.prev_tx_hash == p.1.1)) := by
          obtain ⟨tx1, htx1, hcb1, hkey⟩ := F3 _ hu0
          refine ⟨tx1, List.mem_reverse.mpr htx1, ?_⟩
          rw [List.mem_filter]
          refine ⟨hu0, ?_⟩
          rw [List.any_eq_true]
          simp only [txInputKeys, List.mem_map] at hkey
          obtain ⟨i, hi, hik⟩ := hkey
          exact ⟨i, hi, by rw [beq_iff_eq]; exact congrArg Prod.fst hik⟩
        rw [revertFold_some spent _ _ _ _ _ hnrem hall hex, hsget]
      · have hnadds : ∀ p ∈ spent, p.1 ≠ (kh, ki) := by
          intro p hp hpk
          refine hsp ⟨p.2, ?_⟩
          have hpe : ((kh, ki), p.2) = p := by rw [← hpk]
          exact hpe ▸ hp
        have happlyU : ∀ tx ∈ b.transactions,
            ¬(kh = tx.hash ∧ ki < tx.outputs.length) ∧
            (tx.is_coinbase = true ∨ (kh, ki) ∉ txInputKeys tx) := by
          intro tx htx
          refine ⟨fun hc => hout ⟨tx, htx, hc⟩, ?_⟩
          by_cases hcb : tx.is_coinbase = true
          · exact Or.inl hcb
          · refine Or.inr (fun hin => ?_)
            simp only [txInputKeys, List.mem_map] at hin
            obtain ⟨i, hi, hik⟩ := hin
            obtain ⟨uu, huu⟩ := F2 tx htx (by simpa using hcb) i hi
            rw [hik] at huu
            exact hsp ⟨uu, huu⟩
        rw [revertFold_untouched spent _ _ _ _
          (fun tx htx hc => hout ⟨tx, List.mem_reverse.mp htx, hc⟩) hnadds,
          hU kh ki, hAutxo, applyFold_untouched _ _ _ _ _ happlyU]
  · intro h e0 he0
    have hA : (ChainState.apply_block sigOk now s b).2.block_index h = some e0 := by
      rw [hs1]
      dsimp only
      by_cases hh : h = b.hash
      · rw [hh] at he0
        rw [hbiN] at he0
        exact Option.noConfusion he0
      · rw [if_neg hh]
        exact he0
    exact hBI _ _ hA
  · intro h blk hb
    have hA : (ChainState.apply_block sigOk now s b).2.full_blocks h = some blk := by
      rw [hs1]
      dsimp only
      by_cases hh : h = b.hash
      · rw [hh] at hb
        rw [hfbN] at hb
        exact Option.noConfusion hb
      · rw [if_neg hh]
        exact hb
    exact hFB _ _ hA

theorem revertLoop_sim (sigOk : SigVerifier) (now : Nat) (as : List Block) :
    ∀ (S M T : ChainState) (fuel : Nat),
    chainRel sigOk now S as M → simTo T M → as.length ≤ fuel →
    ∃ T2, revertLoop S.height fuel T = (.ok (), T2) ∧ simTo T2 S ∧
      T2.block_index = T.block_index ∧ T2.full_blocks = T.full_blocks := by
  induction as using List.reverseRecOn with
  | nil =>
    intro S M T fuel hr hsim _
    have hMS : M = S := hr
    rw [hMS] at hsim
    have hnot : ¬ T.height > S.height := by
      rw [hsim.1]
      omega
    refine ⟨T, ?_, hsim, rfl, rfl⟩
    cases fuel with
    | zero =>
      unfold revertLoop
      rw [if_neg hnot]
    | succ n =>
      unfold revertLoop
      rw [if_neg hnot]
  | append_singleton as b ih =>
    intro S M T fuel hr hsim hfuel
    have hMh := chainRel_height sigOk now _ _ _ hr
    obtain ⟨M2, hras, hgood, hM⟩ := chainRel_snoc_elim sigOk now as b S M hr
    have hTM : T.height = M.height := hsim.1
    rw [hM] at hsim
    obtain ⟨T1, hrt, hsimT1, hbiEq, hfbEq⟩ :=
      revert_step_sim sigOk now M2 b T hgood hsim
    have hlen : (as ++ [b]).length = as.length + 1 := by
      simp
    cases fuel with
    | zero => omega
    | succ f =>
      have hgt : T.height > S.height := by
        rw [hTM, hMh, hlen]
        omega
      obtain ⟨T2, hloop, hsimS, hbi2, hfb2⟩ :=
        ih S M2 T1 f hras hsimT1 (by omega)
      refine ⟨T2, ?_, hsimS, hbi2.trans hbiEq, hfb2.trans hfbEq⟩
      show revertLoop S.height (f + 1) T = (.ok (), T2)
      unfold revertLoop
      rw [if_pos hgt, hrt]
      exact hloop

theorem applyChain_sim (sigOk : SigVerifier) (now : Nat) :
    ∀ (bs : List Block) (T S SB : ChainState),
    simTo T S → applyBlocks sigOk now bs S = (.ok (), SB) →
    (∀ b ∈ bs, T.full_blocks b.hash = some b) →
    (bs.map Block.hash).Nodup →
    ∃ T2, applyChainHashes sigOk now (bs.map Block.hash) T = (.ok (), T2) ∧
      simTo T2 SB := by
  intro bs
  induction bs with
  | nil =>
    intro T S SB hsim hB _ _
    have hS : S = SB := congrArg Prod.snd hB
    exact ⟨T, rfl, hS ▸ hsim⟩
  | cons b rest ih =>
    intro T S SB hsim hB hfb hnd
    rw [List.map_cons] at hnd ⊢
    obtain ⟨hbnin, hndrest⟩ := List.nodup_cons.mp hnd
    cases happ : ChainState.apply_block sigOk now S b with
    | mk r s2 =>
      cases r with
      | error e =>
        exfalso
        have hBe : applyBlocks sigOk now (b :: rest) S = (.error e, s2) := by
          unfold applyBlocks
          rw [happ]
        rw [hBe] at hB
        exact Except.noConfusion (congrArg Prod.fst hB)
      | ok spent =>
        have hok1 : (ChainState.apply_block sigOk now S b).1 = .ok spent := by
          rw [happ]
        obtain ⟨hokT, hsim2⟩ := apply_block_sim sigOk now T S b spent hsim hok1
        have hBrest : applyBlocks sigOk now rest s2 = (.ok (), SB) := by
          have hBe : applyBlocks sigOk now (b :: rest) S =
              applyBlocks sigOk now rest s2 := by
            show (match ChainState.apply_block sigOk now S b with
              | (.ok _, t2) => applyBlocks sigOk now rest t2
              | (.error e2, t2) => (.error e2, t2)) =
              applyBlocks sigOk now rest s2
            rw [happ]
          rw [← hBe]
          exact hB
        obtain ⟨subsidy, cbr, fees, hvbtT, hT1⟩ :=
            apply_block_ok_elim sigOk now T b spent hokT
        have hfb2 : ∀ c ∈ rest,
            (ChainState.apply_block sigOk now T b).2.full_blocks c.hash =
            some c := by
          intro c hc
          rw [hT1]
          dsimp only
          have hne : ¬ c.hash = b.hash := by
            intro hx
            exact hbnin (hx ▸ List.mem_map_of_mem Block.hash hc)
          rw [if_neg hne]
          exact hfb c (List.mem_cons_of_mem b hc)
        rw [happ] at hsim2
        obtain ⟨T2, hrun, hsimF⟩ :=
          ih (ChainState.apply_block sigOk now T b).2 s2 SB hsim2 hBrest hfb2
            hndrest
        refine ⟨T2, ?_, hsimF⟩
        cases happT : ChainState.apply_block sigOk now T b with
        | mk rT tT =>
          have hrT : rT = .ok spent := by
            rw [happT] at hokT
            exact hokT
          subst hrT
          rw [happT] at hrun
          have hstep : applyChainHashes sigOk now
              (b.hash :: rest.map Block.hash) T =
              applyChainHashes sigOk now (rest.map Block.hash) tT := by
            show (match T.full_blocks b.hash with
              | none => (.error ("Block data missing during re-org"), T)
              | some block =>
                match ChainState.apply_block sigOk now T block with
                | (.ok _, t2) => applyChainHashes sigOk now
                    (rest.map Block.hash) t2
                | (.error e2, t2) => (.error e2, t2)) =
              applyChainHashes sigOk now (rest.map Block.hash) tT
            rw [hfb b (List.mem_cons_self b rest)]
            show (match ChainState.apply_block sigOk now T b with
              | (.ok _, t2) => applyChainHashes sigOk now
                  (rest.map Block.hash) t2
              | (.error e2, t2) => (.error e2, t2)) =
              applyChainHashes sigOk now (rest.map Block.hash) tT
            rw [happT]
          show applyChainHashes sigOk now (b.hash :: rest.map Block.hash) T =
            (.ok (), T2)
          rw [hstep]
          exact hrun

/-- Claim C3 (amended): reorg equivalence holds under the stated well-formed
conditions.  If the node's state extends a common ancestor by main-chain
blocks applied in well-formed steps (`chainRel`: the tip index entry is
consistent, created output keys are fresh, heights do not wrap, and at most
10 recent timestamps, so that each revert restores the previous state), the
trace-back finds the fork path ending at the common ancestor, the reorg
limits pass, the fork blocks are stored with distinct hashes, and a fresh
node that receives the fork blocks in order on top of the ancestor accepts
them all, then `reorganize(target)` succeeds and reaches the same UTXO set,
height and tip hash as that fresh node.  Without the timestamp condition the
equivalence fails (see the counterexample: reverting cannot restore the
timestamp that `apply_block` dropped from its 11-slot window, and the
mangled median makes `reorganize` reject a fork block a fresh node
accepts). -/
theorem reorganize_refines_fresh_node (sigOk : SigVerifier) (now fuel : Nat)
    (S0 m s sB : ChainState) (as bs : List Block) (target : Hash)
    (hchain : chainRel sigOk now S0 as m)
    (hsim : simTo s m)
    (htb : tracebackLoop s fuel target [] =
      some (bs.map Block.hash, S0.tip_hash))
    (hanc : s.get_block_height S0.tip_hash = some S0.height)
    (hdepth : s.validate_reorg_depth S0.height = .ok ())
    (hfuel : as.length ≤ fuel)
    (hB : applyBlocks sigOk now bs S0 = (.ok (), sB))
    (hfb : ∀ b ∈ bs, s.full_blocks b.hash = some b)
    (hnd : (bs.map Block.hash).Nodup) :
    ∃ s2, ChainState.reorganize sigOk now fuel s target = (.ok (), s2) ∧
      (∀ kh ki, s2.utxo_set.get kh ki = sB.utxo_set.get kh ki) ∧
      s2.height = sB.height ∧ s2.tip_hash = sB.tip_hash := by
  obtain ⟨T1, hloop, hsimS0, hbi1, hfb1⟩ :=
    revertLoop_sim sigOk now as S0 m s fuel hchain hsim hfuel
  have hfbT1 : ∀ b ∈ bs, T1.full_blocks b.hash = some b := by
    intro b hb
    rw [hfb1]
    exact hfb b hb
  obtain ⟨T2, hrun, hsimF⟩ :=
    applyChain_sim sigOk now bs T1 S0 sB hsimS0 hB hfbT1 hnd
  refine ⟨T2, ?_, hsimF.2.2.2.2.2.1, hsimF.1, hsimF.2.1⟩
  unfold ChainState.reorganize
  rw [htb]
  show (match s.get_block_height S0.tip_hash with
    | none => (.error ("Common ancestor not in index"), s)
    | some common_height =>
      match s.validate_reorg_depth common_height with
      | .error e => (.error e, s)
      | .ok _ =>
        match revertLoop common_height fuel s with
        | (.error e, s2) => (.error e, s2)
        | (.ok _, s2) => applyChainHashes sigOk now (bs.map Block.hash) s2) =
    (.ok (), T2)
  rw [hanc]
  show (match s.validate_reorg_depth S0.height with
    | .error e => (.error e, s)
    | .ok _ =>
      match revertLoop S0.height fuel s with
      | (.error e, s2) => (.error e, s2)
      | (.ok _, s2) => applyChainHashes sigOk now (bs.map Block.hash) s2) =
    (.ok (), T2)
  rw [hdepth]
  show (match revertLoop S0.height fuel s with
    | (.error e, s2) => (.error e, s2)
    | (.ok _, s2) => applyChainHashes sigOk now (bs.map Block.hash) s2) =
    (.ok (), T2)
  rw [hloop]
  exact hrun

/-- Claim C3 counterexample: reorg equivalence fails once the 11-slot
timestamp window is full.  On `demoAncState` (11 recent timestamps, median
6000) a fresh node accepts the fork block `demoForkB` (timestamp 3000 ≥
6000 − 3600).  The reorg node applied `demoMainA` first, which dropped the
oldest timestamp from the window; reverting it pops the appended timestamp
but cannot restore the dropped one, so the median rises to 7000 and
`reorganize` rejects the same fork block as too old instead of reaching the
fresh node's state. -/
theorem reorganize_not_fresh_node_counterexample :
    (applyBlocks sigAlwaysOk 20000 [demoForkB] demoAncState).1 = .ok () ∧
    (ChainState.apply_block sigAlwaysOk 20000 demoAncState demoMainA).1.isOk
      = true ∧
    (ChainState.reorganize sigAlwaysOk 20000 10 demoTsSrc demoForkB.hash).1 =
      .error ("Block timestamp is too old") :=
  ⟨rfl, by decide, rfl⟩

theorem reorganize_refines_fresh_node_witness :
    ∃ s2, ChainState.reorganize sigAlwaysOk 1000 10 demoReorgSrc demoBf2.hash =
      (.ok (), s2) ∧
      (∀ kh ki, s2.utxo_set.get kh ki = demoSB.utxo_set.get kh ki) ∧
      s2.height = demoSB.height ∧ s2.tip_hash = demoSB.tip_hash :=
  reorganize_refines_fresh_node sigAlwaysOk 1000 10 demoState demoState1
    demoReorgSrc demoSB [demoB1] [demoBf1, demoBf2] demoBf2.hash
    ⟨⟨⟨[], rfl⟩, rfl, ⟨⟨demoGenesis.header, 0, 0, []⟩, by decide, rfl, rfl⟩,
      by decide, by decide, by decide, by decide, by decide⟩, rfl⟩
    (simTo_trans _ _ _ (simTo_index_block _ demoBf2 (by decide))
      (simTo_index_block _ demoBf1 (by decide)))
    (by decide) (by decide) rfl (by decide) rfl (by decide) (by decide)
